import Mathlib

/-!
Verification development for the pipeline-parallel schedule construction and
lowering engine (spec.md).  The engine itself (`torch/distributed/pipelining/
schedules.py`) is not part of the provided sources: only its test file
`test/distributed/pipelining/test_schedule.py` is.  All definitions below are
therefore modelled from the specification text, as faithfully as its words
allow, and the claims are settled against this model.
-/

namespace PipeSched

/-- Modelled from the spec: §3 Data model.  The operation kinds of an atomic
scheduled unit (the `_ComputationType` enum of the missing
`schedules.py`): forward, backward, weight-update, fused backward+update,
FSDP sharding ops and the four point-to-point communication ops. -/
inductive CompType where
  | F
  | B
  | W
  | BW
  | UNSHARD
  | RESHARD
  | SEND_F
  | RECV_F
  | SEND_B
  | RECV_B
  deriving DecidableEq, Repr

/-- Modelled from the spec: §3 Data model.  An `_Action` of the missing
`schedules.py`: (stage index, operation kind, optional microbatch index). -/
structure Action where
  stage : Nat
  kind : CompType
  mb : Option Nat
  deriving DecidableEq, Repr

/-- Modelled from the spec: §4.1/§9.  Blank tokens denote an idle slot in a
rank's timeline, a distinguished variant rather than a null. -/
inductive Slot where
  | idle
  | act (a : Action)
  deriving DecidableEq, Repr

/-- The non-idle actions of a timeline, in order. -/
def acts (l : List Slot) : List Action :=
  l.filterMap (fun s => match s with | .idle => none | .act a => some a)

/-- Modelled from the spec: §3.  Which kinds carry a microbatch index
(all compute and communication kinds; UNSHARD/RESHARD never do). -/
def hasMb : CompType → Bool
  | .UNSHARD => false
  | .RESHARD => false
  | _ => true

/-- Modelled from the spec: §4.1.  The fixed kind tokens of the Action
grammar, as character lists. -/
def kindChars : CompType → List Char
  | .F => ['F']
  | .B => ['B']
  | .W => ['W']
  | .BW => ['B', 'W']
  | .UNSHARD => ['U', 'N', 'S', 'H', 'A', 'R', 'D']
  | .RESHARD => ['R', 'E', 'S', 'H', 'A', 'R', 'D']
  | .SEND_F => ['S', 'E', 'N', 'D', '_', 'F']
  | .RECV_F => ['R', 'E', 'C', 'V', '_', 'F']
  | .SEND_B => ['S', 'E', 'N', 'D', '_', 'B']
  | .RECV_B => ['R', 'E', 'C', 'V', '_', 'B']

/-- Fuel-driven worker for decimal rendering (structural, so that concrete
tokens evaluate). -/
def natCharsFuel : Nat → Nat → List Char
  | 0, _ => []
  | fuel + 1, n =>
    if n < 10 then [Nat.digitChar n]
    else natCharsFuel fuel (n / 10) ++ [Nat.digitChar (n % 10)]

/-- Decimal rendering of a natural number as characters (big-endian). -/
def natChars (n : Nat) : List Char := natCharsFuel (n + 1) n

lemma natCharsFuel_congr (n : Nat) : ∀ f1 f2 : Nat, n < f1 → n < f2 →
    natCharsFuel f1 n = natCharsFuel f2 n := by
  induction n using Nat.strong_induction_on with
  | _ n ih =>
    intro f1 f2 h1 h2
    match f1, f2 with
    | g1 + 1, g2 + 1 =>
      show (if n < 10 then [Nat.digitChar n]
          else natCharsFuel g1 (n / 10) ++ [Nat.digitChar (n % 10)]) =
        (if n < 10 then [Nat.digitChar n]
          else natCharsFuel g2 (n / 10) ++ [Nat.digitChar (n % 10)])
      by_cases h : n < 10
      · rw [if_pos h, if_pos h]
      · rw [if_neg h, if_neg h]
        have hd : n / 10 < n := Nat.div_lt_self (by omega) (by omega)
        rw [ih (n / 10) hd g1 g2 (by omega) (by omega)]

lemma natChars_eq (n : Nat) :
    natChars n = if n < 10 then [Nat.digitChar n]
      else natChars (n / 10) ++ [Nat.digitChar (n % 10)] := by
  show natCharsFuel (n + 1) n = _
  by_cases h : n < 10
  · rw [if_pos h]
    show (if n < 10 then _ else _) = _
    rw [if_pos h]
  · rw [if_neg h]
    show (if n < 10 then _ else _) = _
    rw [if_neg h]
    have hd : n / 10 < n := Nat.div_lt_self (by omega) (by omega)
    rw [natCharsFuel_congr (n / 10) n (n / 10 + 1) (by omega) (by omega)]
    rfl

/-- Modelled from the spec: §4.1 canonical string form
`{stage_index}{KIND}{microbatch_index?}` of an Action. -/
def Action.toChars (a : Action) : List Char :=
  natChars a.stage ++ kindChars a.kind ++
    (match a.mb with | none => [] | some m => natChars m)

/-- `format(action)`: the canonical string form. -/
def Action.format (a : Action) : String :=
  String.mk a.toChars

/-- Decimal value of a digit list (big-endian). -/
def digitsVal (l : List Char) : Nat :=
  l.foldl (fun acc c => acc * 10 + (c.toNat - 48)) 0

/-- Modelled from the spec: §4.1.  Longest-match-first scan for the kind
token at the head of the remaining characters. -/
def parseKind (cs : List Char) : Option (CompType × List Char) :=
  if ['S', 'E', 'N', 'D', '_', 'F'].isPrefixOf cs then some (.SEND_F, cs.drop 6)
  else if ['S', 'E', 'N', 'D', '_', 'B'].isPrefixOf cs then some (.SEND_B, cs.drop 6)
  else if ['R', 'E', 'C', 'V', '_', 'F'].isPrefixOf cs then some (.RECV_F, cs.drop 6)
  else if ['R', 'E', 'C', 'V', '_', 'B'].isPrefixOf cs then some (.RECV_B, cs.drop 6)
  else if ['U', 'N', 'S', 'H', 'A', 'R', 'D'].isPrefixOf cs then some (.UNSHARD, cs.drop 7)
  else if ['R', 'E', 'S', 'H', 'A', 'R', 'D'].isPrefixOf cs then some (.RESHARD, cs.drop 7)
  else if ['B', 'W'].isPrefixOf cs then some (.BW, cs.drop 2)
  else if ['B'].isPrefixOf cs then some (.B, cs.drop 1)
  else if ['F'].isPrefixOf cs then some (.F, cs.drop 1)
  else if ['W'].isPrefixOf cs then some (.W, cs.drop 1)
  else none

/-- Modelled from the spec: §4.1.  Parse one non-blank Action token
`<int><KIND_TOKEN><int>?`; `none` on a malformed token. -/
def fromChars (cs : List Char) : Option Action :=
  if (cs.takeWhile Char.isDigit).isEmpty then none
  else
    match parseKind (cs.dropWhile Char.isDigit) with
    | none => none
    | some (k, rest2) =>
      if (rest2.dropWhile Char.isDigit).isEmpty then
        if hasMb k then
          if (rest2.takeWhile Char.isDigit).isEmpty then none
          else some ⟨digitsVal (cs.takeWhile Char.isDigit), k,
            some (digitsVal (rest2.takeWhile Char.isDigit))⟩
        else
          if (rest2.takeWhile Char.isDigit).isEmpty then
            some ⟨digitsVal (cs.takeWhile Char.isDigit), k, none⟩
          else none
      else none

/-- Modelled from the spec: §4.1.  `parse(string)`: blank/whitespace-only
tokens parse to the idle sentinel; malformed tokens are rejected with
`none` (the `MalformedActionError` of §7). -/
def from_str (s : String) : Option Slot :=
  if s.data.all (fun c => c = ' ') then some .idle
  else (fromChars s.data).map .act

/-- A forward compute action for a (stage, microbatch) pair. -/
def mkF (p : Nat × Nat) : Action := ⟨p.1, .F, some p.2⟩

/-- A backward compute action for a (stage, microbatch) pair. -/
def mkB (p : Nat × Nat) : Action := ⟨p.1, .B, some p.2⟩

/-- A weight-update action for a (stage, microbatch) pair. -/
def mkW (p : Nat × Nat) : Action := ⟨p.1, .W, some p.2⟩

/-- Modelled from the spec: §4.2.  The steady-state/drain engine shared by
the compute-schedule generators: alternate one forward with one backward
(each backward immediately followed by its weight update) while both
remain, then drain whatever is left. -/
def weave : List (Nat × Nat) → List (Nat × Nat) → List Action
  | [], bs => bs.flatMap (fun b => [mkB b, mkW b])
  | f :: fs, [] => (f :: fs).map mkF
  | f :: fs, b :: bs => mkF f :: mkB b :: mkW b :: weave fs bs

/-- Modelled from the spec: §4.2 and the glossary.  A warm-up/steady-state/
drain schedule for one rank: issue the first `w` forwards of `fwd`
(warm-up), then alternate the remaining forwards with the backwards of
`bwd` (steady state), then drain the remaining backwards. -/
def oneFOneB (fwd bwd : List (Nat × Nat)) (w : Nat) : List Action :=
  (fwd.take w).map mkF ++ weave (fwd.drop w) bwd

/-- Modelled from the spec: §4.2 interleaved policy.  The k-th forward pair
issued by rank `r`: microbatches in index order, round-robin across the
rank's owned stages `r + i * gs` in a fixed cyclic order. -/
def fwdPairFlex (L gs r k : Nat) : Nat × Nat := (r + k % L * gs, k / L)

/-- Modelled from the spec: §4.2.  The k-th backward pair issued by rank
`r`: backward flows stage-index descending, so the cyclic order over the
owned stages is reversed. -/
def bwdPairFlex (L gs r k : Nat) : Nat × Nat := (r + (L - 1 - k % L) * gs, k / L)

/-- Modelled from the spec: §4.2/§9.  The per-rank warm-up count of the
(flexible) interleaved 1F1B generator: enough forwards to cover one full
round over the `L` owned stages, plus two extra per rank closer to the
front of the pipeline, capped at the total number of forwards.  (The spec
leaves the exact formula an implementation choice satisfying the
contract.) -/
def warmupFlex (L M gs r : Nat) : Nat := min (L * M) (L - 1 + 2 * (gs - 1 - r))

/-- Modelled from the spec: §4.2.  One rank's compute-only schedule under
the flexible interleaved 1F1B policy. -/
def flexRank (L M gs r : Nat) : List Action :=
  oneFOneB ((List.range (L * M)).map (fwdPairFlex L gs r))
    ((List.range (L * M)).map (bwdPairFlex L gs r)) (warmupFlex L M gs r)

/-- Modelled from the spec: §4.2.  The flexible interleaved 1F1B generator:
per-rank compute-only schedules, rank `r` owning stages `r + i * gs` for
`i < L` (`num_stages = L * gs`); tolerates any microbatch count. -/
def ScheduleFlexibleInterleaved1F1B (L M gs : Nat) : List (List Action) :=
  (List.range gs).map (flexRank L M gs)

/-- Modelled from the spec: §4.2 looped BFS policy.  The k-th forward pair
of rank `r`: all microbatches of one owned stage before moving to the
next (breadth-first waves). -/
def fwdPairBFS (M gs r k : Nat) : Nat × Nat := (r + k / M * gs, k % M)

/-- Modelled from the spec: §4.2.  The k-th backward pair of rank `r` under
looped BFS: owned stages in descending order. -/
def bwdPairBFS (L M gs r k : Nat) : Nat × Nat := (r + (L - 1 - k / M) * gs, k % M)

/-- Modelled from the spec: §4.2.  One rank's compute-only schedule under
the looped BFS policy: all forwards before any backward. -/
def bfsRank (L M gs r : Nat) : List Action :=
  oneFOneB ((List.range (L * M)).map (fwdPairBFS M gs r))
    ((List.range (L * M)).map (bwdPairBFS L M gs r)) (L * M)

/-- Modelled from the spec: §4.2.  The looped BFS generator. -/
def ScheduleLoopedBFS (L M gs : Nat) : List (List Action) :=
  (List.range gs).map (bfsRank L M gs)

/-- Modelled from the spec: §7.  The configuration error raised on illegal
shape parameters. -/
inductive ConfigurationError where
  | nonDivisibleMicrobatches
  deriving DecidableEq, Repr

/-- Modelled from the spec: §4.2.  The (strict) interleaved 1F1B generator:
requires `num_microbatches % group_size == 0` and raises a configuration
error otherwise, before any schedule is built. -/
def ScheduleInterleaved1F1B (L M gs : Nat) :
    Except ConfigurationError (List (List Action)) :=
  if M % gs = 0 then .ok (ScheduleFlexibleInterleaved1F1B L M gs)
  else .error .nonDivisibleMicrobatches

/-- Does a slot reference stage `s` (idle slots reference nothing)? -/
def refersTo (s : Nat) : Slot → Bool
  | .idle => false
  | .act a => a.stage == s

/-- Modelled from the spec: §4.3.  Worker of the sharding-insertion pass:
`seen` is the set of stages whose first reference has already been
processed (their UNSHARD is in flight or closed).  UNSHARD is inserted
immediately before the first action referencing a stage, RESHARD
immediately after the last, and idle slots are preserved verbatim. -/
def shardGo (seen : List Nat) : List Slot → List Slot
  | [] => []
  | .idle :: rest => .idle :: shardGo seen rest
  | .act a :: rest =>
      (if a.stage ∈ seen then [] else [.act ⟨a.stage, .UNSHARD, none⟩])
        ++ .act a ::
          ((if rest.any (refersTo a.stage) then []
            else [.act ⟨a.stage, .RESHARD, none⟩])
            ++ shardGo (a.stage :: seen) rest)

/-- Modelled from the spec: §4.3.  The sharding-insertion pass
(`_add_unshard_reshard` analog), a purely local single-rank rewrite. -/
def add_unshard_reshard (l : List Slot) : List Slot := shardGo [] l

/-- Modelled from the spec: §4.4.  The BW-merge pass (`_merge_bw` analog):
an immediately adjacent backward/weight-update pair for the same
(stage, microbatch) is fused into a single BW action. -/
def merge_bw : List Action → List Action
  | [] => []
  | [a] => [a]
  | a :: b :: rest =>
    if a.kind = .B ∧ b.kind = .W ∧ a.stage = b.stage ∧ a.mb = b.mb then
      ⟨a.stage, .BW, a.mb⟩ :: merge_bw rest
    else
      a :: merge_bw (b :: rest)

/-- Un-fuse every BW action back into its backward and weight-update
halves (used to state that the merge pass does nothing beyond fusing
adjacent pairs). -/
def expandBW (l : List Action) : List Action :=
  l.flatMap (fun a =>
    if a.kind = .BW then [⟨a.stage, .B, a.mb⟩, ⟨a.stage, .W, a.mb⟩] else [a])

/-- Modelled from the spec: §4.5.  The receive inserted immediately before
a compute action on rank `r` when its producer stage lives on a
different rank. -/
def recvsFor (s2r : Nat → Nat) (nS r : Nat) (a : Action) : List Action :=
  match a.kind with
  | .F => if 0 < a.stage ∧ s2r (a.stage - 1) ≠ r then [⟨a.stage, .RECV_F, a.mb⟩] else []
  | .B => if a.stage + 1 < nS ∧ s2r (a.stage + 1) ≠ r then [⟨a.stage, .RECV_B, a.mb⟩] else []
  | _ => []

/-- Modelled from the spec: §4.5.  The send inserted immediately after a
compute action on rank `r` when its consumer stage lives on a different
rank. -/
def sendsFor (s2r : Nat → Nat) (nS r : Nat) (a : Action) : List Action :=
  match a.kind with
  | .F => if a.stage + 1 < nS ∧ s2r (a.stage + 1) ≠ r then [⟨a.stage, .SEND_F, a.mb⟩] else []
  | .B => if 0 < a.stage ∧ s2r (a.stage - 1) ≠ r then [⟨a.stage, .SEND_B, a.mb⟩] else []
  | _ => []

/-- Modelled from the spec: §4.5.  One rank's timeline after the send/recv
pass: idle slots are skipped, and each compute action is spliced between
its receive (if any) and its send (if any), preserving the relative
order of the original compute actions. -/
def sendRecvRank (s2r : Nat → Nat) (nS r : Nat) (l : List Slot) : List Action :=
  (acts l).flatMap (fun a => recvsFor s2r nS r a ++ a :: sendsFor s2r nS r a)

/-- Modelled from the spec: §4.5.  The send/recv-insertion pass
(`_add_send_recv` analog) over the full multi-rank schedule (rank =
list index). -/
def add_send_recv (sched : List (List Slot)) (s2r : Nat → Nat) (nS : Nat) :
    List (List Action) :=
  (List.range sched.length).map (fun r => sendRecvRank s2r nS r (sched.getD r []))

/-- Total number of occurrences of an action across the union of all
ranks' timelines of a multi-rank schedule. -/
def totalCount (a : Action) (sched : List (List Action)) : Nat :=
  (sched.map (List.count a)).sum

/-! ### Lemmas about the BW-merge pass -/

lemma merge_bw_cons_cons (a b : Action) (t : List Action) :
    merge_bw (a :: b :: t) =
      if a.kind = .B ∧ b.kind = .W ∧ a.stage = b.stage ∧ a.mb = b.mb then
        ⟨a.stage, .BW, a.mb⟩ :: merge_bw t
      else a :: merge_bw (b :: t) := by
  simp only [merge_bw]

lemma merge_bw_cons_of_kind (a : Action) (l : List Action) (h : a.kind ≠ .B) :
    merge_bw (a :: l) = a :: merge_bw l := by
  cases l with
  | nil => rfl
  | cons b t =>
    rw [merge_bw_cons_cons, if_neg]
    intro hc
    exact h hc.1

lemma merge_bw_head (b : Action) (t : List Action) :
    (∃ u, merge_bw (b :: t) = b :: u) ∨
      (∃ u, merge_bw (b :: t) = ⟨b.stage, .BW, b.mb⟩ :: u) := by
  cases t with
  | nil => exact Or.inl ⟨[], rfl⟩
  | cons c u =>
    by_cases hc : b.kind = .B ∧ c.kind = .W ∧ b.stage = c.stage ∧ b.mb = c.mb
    · refine Or.inr ⟨merge_bw u, ?_⟩
      simp only [merge_bw]
      rw [if_pos hc]
    · refine Or.inl ⟨merge_bw (c :: u), ?_⟩
      simp only [merge_bw]
      rw [if_neg hc]

lemma expandBW_cons (a : Action) (l : List Action) :
    expandBW (a :: l) =
      (if a.kind = .BW then [⟨a.stage, .B, a.mb⟩, ⟨a.stage, .W, a.mb⟩] else [a])
        ++ expandBW l := by
  simp [expandBW]

lemma merge_bw_expand (l : List Action) (h : ∀ a ∈ l, a.kind ≠ .BW) :
    expandBW (merge_bw l) = l := by
  induction l using merge_bw.induct with
  | case1 => rfl
  | case2 a =>
    have := h a (by simp)
    simp [merge_bw, expandBW, this]
  | case3 a b rest hc ih =>
    simp only [merge_bw]
    rw [if_pos hc, expandBW_cons, if_pos rfl,
      ih (fun x hx => h x (by simp [hx]))]
    obtain ⟨h1, h2, h3, h4⟩ := hc
    cases a with
    | mk s1 k1 m1 =>
      cases b with
      | mk s2 k2 m2 => simp_all
  | case4 a b rest hc ih =>
    simp only [merge_bw]
    rw [if_neg hc, expandBW_cons, if_neg (h a (by simp))]
    simp [ih (fun x hx => h x (by simp [hx]))]

/-- C10: for every single-rank Action list, applying the BW-merge pass twice
equals applying it once. -/
theorem C10_merge_bw_idempotent (l : List Action) :
    merge_bw (merge_bw l) = merge_bw l := by
  induction l using merge_bw.induct with
  | case1 => rfl
  | case2 a => rfl
  | case3 a b rest h ih =>
    simp only [merge_bw]
    rw [if_pos h, merge_bw_cons_of_kind _ _ (by simp), ih]
  | case4 a b rest h ih =>
    rw [merge_bw_cons_cons, if_neg h]
    rcases merge_bw_head b rest with ⟨u, hu⟩ | ⟨u, hu⟩
    · have ih' : merge_bw (b :: u) = b :: u := by rw [← hu, ih]
      rw [hu]
      cases u with
      | nil => rw [merge_bw_cons_cons, if_neg h]; rfl
      | cons c v => rw [merge_bw_cons_cons, if_neg h, ih']
    · have ih' : merge_bw (⟨b.stage, .BW, b.mb⟩ :: u) = ⟨b.stage, .BW, b.mb⟩ :: u := by
        rw [← hu, ih]
      rw [hu]
      cases u with
      | nil =>
        rw [merge_bw_cons_cons, if_neg (fun hc => absurd hc.2.1 (by simp))]
        rfl
      | cons c v =>
        rw [merge_bw_cons_cons, if_neg, ih']
        intro hc
        exact absurd hc.2.1 (by simp)

/-- C9: applied to the reference input
`["0F0","0F1","0F2","0B0","0B1","0W0","0B2","0W2","0W1"]` the BW-merge pass
returns `["0F0","0F1","0F2","0B0","0B1","0W0","0BW2","0W1"]`; and in general
the pass only fuses an adjacent BACKWARD/WEIGHT_UPDATE pair with the same
(stage, microbatch) into one BACKWARD_WEIGHT_FUSED action, leaving
everything else in place: un-fusing its output recovers the input
verbatim. -/
theorem C9_merge_bw_reference :
    merge_bw [⟨0, .F, some 0⟩, ⟨0, .F, some 1⟩, ⟨0, .F, some 2⟩, ⟨0, .B, some 0⟩,
        ⟨0, .B, some 1⟩, ⟨0, .W, some 0⟩, ⟨0, .B, some 2⟩, ⟨0, .W, some 2⟩,
        ⟨0, .W, some 1⟩] =
      [⟨0, .F, some 0⟩, ⟨0, .F, some 1⟩, ⟨0, .F, some 2⟩, ⟨0, .B, some 0⟩,
        ⟨0, .B, some 1⟩, ⟨0, .W, some 0⟩, ⟨0, .BW, some 2⟩, ⟨0, .W, some 1⟩] ∧
    ∀ l : List Action, (∀ a ∈ l, a.kind ≠ .BW) → expandBW (merge_bw l) = l := by
  exact ⟨by decide, merge_bw_expand⟩

/-- Witness for C9 at the reference input (whose actions are BW-free). -/
theorem C9_merge_bw_reference_witness :
    expandBW (merge_bw [⟨0, .F, some 0⟩, ⟨0, .B, some 0⟩, ⟨0, .W, some 0⟩]) =
      [⟨0, .F, some 0⟩, ⟨0, .B, some 0⟩, ⟨0, .W, some 0⟩] :=
  C9_merge_bw_reference.2 _ (by decide)

/-! ### Lemmas about the sharding-insertion pass -/

/-- Is a slot the idle sentinel? -/
def isIdle : Slot → Bool
  | .idle => true
  | .act _ => false

/-- Is a slot a sharding operation (UNSHARD or RESHARD)? -/
def isShardOp : Slot → Bool
  | .idle => false
  | .act a => a.kind == .UNSHARD || a.kind == .RESHARD

/-- A timeline is compute-only when none of its actions is a sharding op. -/
def computeOnly (l : List Slot) : Prop :=
  ∀ a ∈ acts l, a.kind ≠ .UNSHARD ∧ a.kind ≠ .RESHARD

instance instDecidableComputeOnly (l : List Slot) : Decidable (computeOnly l) := by
  unfold computeOnly
  infer_instance

lemma acts_cons_act (a : Action) (l : List Slot) :
    acts (Slot.act a :: l) = a :: acts l := rfl

lemma acts_cons_idle (l : List Slot) : acts (Slot.idle :: l) = acts l := rfl

lemma computeOnly_cons_act {a : Action} {l : List Slot}
    (h : computeOnly (Slot.act a :: l)) : computeOnly l :=
  fun x hx => h x (by rw [acts_cons_act]; exact List.mem_cons_of_mem _ hx)

lemma computeOnly_cons_idle {l : List Slot}
    (h : computeOnly (Slot.idle :: l)) : computeOnly l :=
  fun x hx => h x (by rw [acts_cons_idle]; exact hx)

lemma computeOnly_head {a : Action} {l : List Slot}
    (h : computeOnly (Slot.act a :: l)) :
    a.kind ≠ .UNSHARD ∧ a.kind ≠ .RESHARD :=
  h a (by rw [acts_cons_act]; exact List.mem_cons_self _ _)

lemma shardGo_filter_isIdle (l : List Slot) (seen : List Nat) :
    (shardGo seen l).filter isIdle = l.filter isIdle := by
  induction l generalizing seen with
  | nil => rfl
  | cons hd rest ih =>
    cases hd with
    | idle => simp [shardGo, isIdle, ih]
    | act a =>
      simp only [shardGo, List.filter_append, List.filter_cons]
      split_ifs <;> simp [isIdle, ih]

lemma shardGo_filter_not_shard (l : List Slot) (seen : List Nat)
    (h : computeOnly l) :
    (shardGo seen l).filter (fun s => !isShardOp s) = l := by
  induction l generalizing seen with
  | nil => rfl
  | cons hd rest ih =>
    cases hd with
    | idle =>
      simp only [shardGo, List.filter_cons]
      rw [if_pos (by decide), ih seen (computeOnly_cons_idle h)]
    | act a =>
      have hk := computeOnly_head h
      simp only [shardGo, List.filter_append, List.filter_cons]
      rw [ih (a.stage :: seen) (computeOnly_cons_act h)]
      split_ifs <;> simp_all [isShardOp, hk.1, hk.2]

lemma refersTo_idle (s : Nat) : refersTo s Slot.idle = false := rfl

lemma refersTo_act (s : Nat) (a : Action) :
    refersTo s (Slot.act a) = (a.stage == s) := rfl

lemma shardGo_count_unshard (l : List Slot) (seen : List Nat) (s : Nat)
    (h : computeOnly l) :
    List.count (Slot.act ⟨s, .UNSHARD, none⟩) (shardGo seen l) =
      if s ∉ seen ∧ l.any (refersTo s) then 1 else 0 := by
  induction l generalizing seen with
  | nil => simp [shardGo]
  | cons hd rest ih =>
    cases hd with
    | idle =>
      show List.count _ (Slot.idle :: shardGo seen rest) = _
      rw [List.count_cons, ih seen (computeOnly_cons_idle h)]
      simp [refersTo_idle]
    | act a =>
      have hk := computeOnly_head h
      have hne : (Slot.act a == Slot.act ⟨s, .UNSHARD, none⟩) = false := by
        rw [beq_eq_false_iff_ne]
        intro hc
        apply hk.1
        rw [Slot.act.injEq] at hc
        rw [hc]
      have t1 : List.count (Slot.act ⟨s, .UNSHARD, none⟩)
          (if a.stage ∈ seen then ([] : List Slot)
            else [Slot.act ⟨a.stage, .UNSHARD, none⟩]) =
          if a.stage ∉ seen ∧ a.stage = s then 1 else 0 := by
        by_cases h1 : a.stage ∈ seen
        · rw [if_pos h1, List.count_nil, if_neg (fun hc => hc.1 h1)]
        · rw [if_neg h1, List.count_singleton]
          by_cases h2 : a.stage = s
          · subst h2
            simp [h1]
          · simp [h1, h2, Action.mk.injEq]
      have t3 : List.count (Slot.act ⟨s, .UNSHARD, none⟩)
          (if rest.any (refersTo a.stage) then ([] : List Slot)
            else [Slot.act ⟨a.stage, .RESHARD, none⟩]) = 0 := by
        split_ifs <;> simp [List.count_singleton, Action.mk.injEq]
      show List.count _ ((if a.stage ∈ seen then ([] : List Slot)
          else [Slot.act ⟨a.stage, .UNSHARD, none⟩]) ++ Slot.act a ::
            ((if rest.any (refersTo a.stage) then ([] : List Slot)
              else [Slot.act ⟨a.stage, .RESHARD, none⟩])
              ++ shardGo (a.stage :: seen) rest)) = _
      rw [List.count_append, List.count_cons, List.count_append, t1, t3,
        ih (a.stage :: seen) (computeOnly_cons_act h), hne, List.any_cons,
        refersTo_act]
      by_cases h2 : a.stage = s
      · subst h2
        by_cases h1 : a.stage ∈ seen <;>
          by_cases h4 : rest.any (refersTo a.stage) <;>
            simp [h1, h4, List.mem_cons]
      · have hsa : ¬s = a.stage := fun hss => h2 hss.symm
        by_cases h1 : s ∈ seen <;>
          by_cases h4 : rest.any (refersTo s) <;>
            simp [h1, h4, h2, hsa, List.mem_cons]

lemma shardGo_count_reshard (l : List Slot) (seen : List Nat) (s : Nat)
    (h : computeOnly l) :
    List.count (Slot.act ⟨s, .RESHARD, none⟩) (shardGo seen l) =
      if l.any (refersTo s) then 1 else 0 := by
  induction l generalizing seen with
  | nil => simp [shardGo]
  | cons hd rest ih =>
    cases hd with
    | idle =>
      show List.count _ (Slot.idle :: shardGo seen rest) = _
      rw [List.count_cons, ih seen (computeOnly_cons_idle h)]
      simp [refersTo_idle]
    | act a =>
      have hk := computeOnly_head h
      have hne : (Slot.act a == Slot.act ⟨s, .RESHARD, none⟩) = false := by
        rw [beq_eq_false_iff_ne]
        intro hc
        apply hk.2
        rw [Slot.act.injEq] at hc
        rw [hc]
      have t1 : List.count (Slot.act ⟨s, .RESHARD, none⟩)
          (if a.stage ∈ seen then ([] : List Slot)
            else [Slot.act ⟨a.stage, .UNSHARD, none⟩]) = 0 := by
        split_ifs <;> simp [List.count_singleton, Action.mk.injEq]
      have t3 : List.count (Slot.act ⟨s, .RESHARD, none⟩)
          (if rest.any (refersTo a.stage) then ([] : List Slot)
            else [Slot.act ⟨a.stage, .RESHARD, none⟩]) =
          if ¬rest.any (refersTo a.stage) ∧ a.stage = s then 1 else 0 := by
        by_cases h3 : rest.any (refersTo a.stage)
        · rw [if_pos h3, List.count_nil, if_neg (fun hc => hc.1 h3)]
        · rw [if_neg h3, List.count_singleton]
          by_cases h2 : a.stage = s
          · subst h2
            simp [h3]
          · simp [h3, h2, Action.mk.injEq]
      show List.count _ ((if a.stage ∈ seen then ([] : List Slot)
          else [Slot.act ⟨a.stage, .UNSHARD, none⟩]) ++ Slot.act a ::
            ((if rest.any (refersTo a.stage) then ([] : List Slot)
              else [Slot.act ⟨a.stage, .RESHARD, none⟩])
              ++ shardGo (a.stage :: seen) rest)) = _
      rw [List.count_append, List.count_cons, List.count_append, t1, t3,
        ih (a.stage :: seen) (computeOnly_cons_act h), hne, List.any_cons,
        refersTo_act]
      by_cases h2 : a.stage = s
      · subst h2
        by_cases h4 : rest.any (refersTo a.stage) <;> simp [h4]
      · by_cases h4 : rest.any (refersTo s) <;> simp [h2, h4]

lemma shardGo_no_ref (l : List Slot) (seen : List Nat) (s : Nat)
    (h : l.any (refersTo s) = false) :
    (shardGo seen l).any (refersTo s) = false := by
  induction l generalizing seen with
  | nil => simp [shardGo]
  | cons hd rest ih =>
    cases hd with
    | idle =>
      rw [List.any_cons, refersTo_idle] at h
      show (Slot.idle :: shardGo seen rest).any _ = false
      simp only [List.any_cons, refersTo_idle, Bool.false_or]
      exact ih seen (by simpa using h)
    | act a =>
      rw [List.any_cons, refersTo_act, Bool.or_eq_false_iff] at h
      show ((if a.stage ∈ seen then ([] : List Slot)
          else [Slot.act ⟨a.stage, .UNSHARD, none⟩]) ++ Slot.act a ::
            ((if rest.any (refersTo a.stage) then ([] : List Slot)
              else [Slot.act ⟨a.stage, .RESHARD, none⟩])
              ++ shardGo (a.stage :: seen) rest)).any _ = false
      have hr := ih (a.stage :: seen) h.2
      split_ifs <;>
        simp_all [List.any_append, List.any_cons, refersTo_act]

lemma shardGo_unshard_place (l : List Slot) (seen : List Nat) (s : Nat)
    (hseen : s ∉ seen) (href : l.any (refersTo s) = true) :
    ∃ x a y, shardGo seen l =
        x ++ Slot.act ⟨s, .UNSHARD, none⟩ :: Slot.act a :: y ∧
      a.stage = s ∧ x.any (refersTo s) = false := by
  induction l generalizing seen with
  | nil => simp at href
  | cons hd rest ih =>
    cases hd with
    | idle =>
      rw [List.any_cons, refersTo_idle, Bool.false_or] at href
      obtain ⟨x, a, y, hx, ha, hxa⟩ := ih seen hseen href
      refine ⟨Slot.idle :: x, a, y, ?_, ha, ?_⟩
      · show Slot.idle :: shardGo seen rest = _
        rw [hx]
        rfl
      · simp [List.any_cons, refersTo_idle, hxa]
    | act b =>
      rw [List.any_cons, refersTo_act] at href
      by_cases hb : b.stage = s
      · have hbs : b.stage ∉ seen := by rw [hb]; exact hseen
        refine ⟨[], b, (if rest.any (refersTo b.stage) then ([] : List Slot)
          else [Slot.act ⟨b.stage, .RESHARD, none⟩])
            ++ shardGo (b.stage :: seen) rest, ?_, hb, by simp⟩
        show ((if b.stage ∈ seen then ([] : List Slot)
            else [Slot.act ⟨b.stage, .UNSHARD, none⟩]) ++ Slot.act b :: _) = _
        rw [if_neg hbs, hb]
        rfl
      · have href' : rest.any (refersTo s) = true := by
          rcases Bool.or_eq_true_iff.mp href with hc | hc
          · exact absurd (by simpa using hc) hb
          · exact hc
        have hseen' : s ∉ b.stage :: seen := by
          intro hc
          rcases List.mem_cons.mp hc with hc | hc
          · exact hb hc.symm
          · exact hseen hc
        obtain ⟨x, a, y, hx, ha, hxa⟩ := ih (b.stage :: seen) hseen' href'
        refine ⟨(if b.stage ∈ seen then ([] : List Slot)
          else [Slot.act ⟨b.stage, .UNSHARD, none⟩]) ++ Slot.act b ::
            ((if rest.any (refersTo b.stage) then ([] : List Slot)
              else [Slot.act ⟨b.stage, .RESHARD, none⟩]) ++ x), a, y, ?_, ha, ?_⟩
        · show ((if b.stage ∈ seen then ([] : List Slot)
              else [Slot.act ⟨b.stage, .UNSHARD, none⟩]) ++ Slot.act b ::
                ((if rest.any (refersTo b.stage) then ([] : List Slot)
                  else [Slot.act ⟨b.stage, .RESHARD, none⟩])
                  ++ shardGo (b.stage :: seen) rest)) = _
          rw [hx]
          simp [List.append_assoc, List.cons_append]
        · split_ifs <;>
            simp [List.any_append, List.any_cons, refersTo_act, hxa, hb]

lemma shardGo_reshard_place (l : List Slot) (seen : List Nat) (s : Nat)
    (href : l.any (refersTo s) = true) :
    ∃ x b y, shardGo seen l =
        x ++ Slot.act b :: Slot.act ⟨s, .RESHARD, none⟩ :: y ∧
      b.stage = s ∧ y.any (refersTo s) = false := by
  induction l generalizing seen with
  | nil => simp at href
  | cons hd rest ih =>
    cases hd with
    | idle =>
      rw [List.any_cons, refersTo_idle, Bool.false_or] at href
      obtain ⟨x, b, y, hx, hb, hy⟩ := ih seen href
      refine ⟨Slot.idle :: x, b, y, ?_, hb, hy⟩
      show Slot.idle :: shardGo seen rest = _
      rw [hx]
      rfl
    | act b =>
      by_cases hrest : rest.any (refersTo s)
      · obtain ⟨x, c, y, hx, hc, hy⟩ := ih (b.stage :: seen) hrest
        refine ⟨(if b.stage ∈ seen then ([] : List Slot)
          else [Slot.act ⟨b.stage, .UNSHARD, none⟩]) ++ Slot.act b ::
            ((if rest.any (refersTo b.stage) then ([] : List Slot)
              else [Slot.act ⟨b.stage, .RESHARD, none⟩]) ++ x), c, y, ?_, hc, hy⟩
        show ((if b.stage ∈ seen then ([] : List Slot)
            else [Slot.act ⟨b.stage, .UNSHARD, none⟩]) ++ Slot.act b ::
              ((if rest.any (refersTo b.stage) then ([] : List Slot)
                else [Slot.act ⟨b.stage, .RESHARD, none⟩])
                ++ shardGo (b.stage :: seen) rest)) = _
        rw [hx]
        simp [List.append_assoc, List.cons_append]
      · have hb : b.stage = s := by
          rw [List.any_cons, refersTo_act] at href
          rcases Bool.or_eq_true_iff.mp href with hc | hc
          · exact by simpa using hc
          · exact absurd hc hrest
        have hmr : rest.any (refersTo b.stage) = false := by
          rw [hb]
          exact Bool.not_eq_true _ ▸ (by simpa using hrest)
        refine ⟨(if b.stage ∈ seen then ([] : List Slot)
          else [Slot.act ⟨b.stage, .UNSHARD, none⟩]), b,
            shardGo (b.stage :: seen) rest, ?_, hb,
            shardGo_no_ref rest (b.stage :: seen) s (by simpa using hrest)⟩
        show ((if b.stage ∈ seen then ([] : List Slot)
            else [Slot.act ⟨b.stage, .UNSHARD, none⟩]) ++ Slot.act b ::
              ((if rest.any (refersTo b.stage) then ([] : List Slot)
                else [Slot.act ⟨b.stage, .RESHARD, none⟩])
                ++ shardGo (b.stage :: seen) rest)) = _
        rw [hmr, hb]
        simp

/-- C7: applied to the single-stage compute sequence
`["0F0","0F1","0B0","0B1"]` the sharding-insertion pass returns
`["0UNSHARD","0F0","0F1","0B0","0B1","0RESHARD"]`; and in general, on any
compute-only timeline it inserts exactly one UNSHARD per referenced stage
(immediately before the first action referencing it, hence never a
redundant one while one is in flight) and exactly one RESHARD per
referenced stage (immediately after the last action referencing it). -/
theorem C7_add_unshard_reshard_reference :
    add_unshard_reshard [Slot.act ⟨0, .F, some 0⟩, Slot.act ⟨0, .F, some 1⟩,
        Slot.act ⟨0, .B, some 0⟩, Slot.act ⟨0, .B, some 1⟩] =
      [Slot.act ⟨0, .UNSHARD, none⟩, Slot.act ⟨0, .F, some 0⟩,
        Slot.act ⟨0, .F, some 1⟩, Slot.act ⟨0, .B, some 0⟩,
        Slot.act ⟨0, .B, some 1⟩, Slot.act ⟨0, .RESHARD, none⟩] ∧
    ∀ (l : List Slot) (s : Nat), computeOnly l →
      (List.count (Slot.act ⟨s, .UNSHARD, none⟩) (add_unshard_reshard l) =
        if l.any (refersTo s) then 1 else 0) ∧
      (List.count (Slot.act ⟨s, .RESHARD, none⟩) (add_unshard_reshard l) =
        if l.any (refersTo s) then 1 else 0) ∧
      (l.any (refersTo s) = true →
        (∃ x a y, add_unshard_reshard l =
            x ++ Slot.act ⟨s, .UNSHARD, none⟩ :: Slot.act a :: y ∧
          a.stage = s ∧ x.any (refersTo s) = false) ∧
        (∃ x b y, add_unshard_reshard l =
            x ++ Slot.act b :: Slot.act ⟨s, .RESHARD, none⟩ :: y ∧
          b.stage = s ∧ y.any (refersTo s) = false)) := by
  refine ⟨by decide, fun l s hco => ⟨?_, shardGo_count_reshard l [] s hco, fun href =>
    ⟨shardGo_unshard_place l [] s (by simp) href,
      shardGo_reshard_place l [] s href⟩⟩⟩
  rw [add_unshard_reshard, shardGo_count_unshard l [] s hco]
  simp

/-- Witness for C7: the general clauses instantiated on a concrete
compute-only timeline. -/
theorem C7_add_unshard_reshard_reference_witness :
    List.count (Slot.act ⟨1, .UNSHARD, none⟩)
        (add_unshard_reshard [Slot.act ⟨1, .F, some 0⟩, Slot.act ⟨1, .B, some 0⟩]) =
      if [Slot.act ⟨1, .F, some 0⟩, Slot.act ⟨1, .B, some 0⟩].any (refersTo 1)
        then 1 else 0 :=
  (C7_add_unshard_reshard_reference.2
    [Slot.act ⟨1, .F, some 0⟩, Slot.act ⟨1, .B, some 0⟩] 1 (by decide)).1

/-- C8: the sharding-insertion pass preserves idle slots verbatim: filtering
its output to idle slots gives exactly the input's idle slots, and (on
compute-only input) deleting the inserted sharding ops from the output
recovers the input list verbatim, idle slots in their original relative
positions. -/
theorem C8_idle_pass_through :
    (∀ l : List Slot, (add_unshard_reshard l).filter isIdle = l.filter isIdle) ∧
    (∀ l : List Slot, computeOnly l →
      (add_unshard_reshard l).filter (fun sl => !isShardOp sl) = l) :=
  ⟨fun l => shardGo_filter_isIdle l [], fun l h => shardGo_filter_not_shard l [] h⟩

/-- Witness for C8 on a concrete timeline with idle slots. -/
theorem C8_idle_pass_through_witness :
    (add_unshard_reshard [Slot.idle, Slot.act ⟨0, .F, some 0⟩, Slot.idle,
        Slot.act ⟨0, .B, some 0⟩]).filter (fun sl => !isShardOp sl) =
      [Slot.idle, Slot.act ⟨0, .F, some 0⟩, Slot.idle, Slot.act ⟨0, .B, some 0⟩] :=
  C8_idle_pass_through.2 _ (by decide)

/-! ### Lemmas about Action serialization -/

lemma digitChar_isDigit (d : Nat) (h : d < 10) : (Nat.digitChar d).isDigit = true := by
  interval_cases d <;> decide

lemma digitChar_val (d : Nat) (h : d < 10) : (Nat.digitChar d).toNat - 48 = d := by
  interval_cases d <;> decide

lemma natChars_ne_nil (n : Nat) : natChars n ≠ [] := by
  rw [natChars_eq]
  split_ifs <;> simp

lemma natChars_all_digit (n : Nat) : ∀ c ∈ natChars n, c.isDigit = true := by
  induction n using Nat.strong_induction_on with
  | _ n ih =>
    rw [natChars_eq]
    split_ifs with h
    · intro c hc
      rw [List.mem_singleton] at hc
      subst hc
      exact digitChar_isDigit n h
    · intro c hc
      rcases List.mem_append.mp hc with hc | hc
      · exact ih (n / 10) (Nat.div_lt_self (by omega) (by omega)) c hc
      · rw [List.mem_singleton] at hc
        subst hc
        exact digitChar_isDigit (n % 10) (Nat.mod_lt _ (by omega))

lemma foldl_digits_natChars (n : Nat) : ∀ acc : Nat,
    List.foldl (fun acc c => acc * 10 + (c.toNat - 48)) acc (natChars n) =
      acc * 10 ^ (natChars n).length + n := by
  induction n using Nat.strong_induction_on with
  | _ n ih =>
    intro acc
    rw [natChars_eq]
    split_ifs with h
    · rw [List.foldl_cons, List.foldl_nil, List.length_singleton, pow_one,
        digitChar_val n h]
    · rw [List.foldl_append,
        ih (n / 10) (Nat.div_lt_self (by omega) (by omega)) acc,
        List.foldl_cons, List.foldl_nil,
        digitChar_val (n % 10) (Nat.mod_lt _ (by omega)),
        List.length_append, List.length_singleton, pow_succ]
      have hdm := Nat.div_add_mod n 10
      calc (acc * 10 ^ (natChars (n / 10)).length + n / 10) * 10 + n % 10
          = acc * (10 ^ (natChars (n / 10)).length * 10)
              + (10 * (n / 10) + n % 10) := by ring
        _ = acc * (10 ^ (natChars (n / 10)).length * 10) + n := by rw [hdm]

lemma digitsVal_natChars (n : Nat) : digitsVal (natChars n) = n := by
  rw [digitsVal, foldl_digits_natChars n 0]
  simp

lemma takeWhile_dropWhile_digits (xs rest : List Char)
    (hxs : ∀ c ∈ xs, c.isDigit = true)
    (hrest : ∀ c, rest.head? = some c → c.isDigit = false) :
    (xs ++ rest).takeWhile Char.isDigit = xs ∧
      (xs ++ rest).dropWhile Char.isDigit = rest := by
  induction xs with
  | nil =>
    simp only [List.nil_append]
    cases rest with
    | nil => simp
    | cons c cs =>
      have hc := hrest c rfl
      constructor
      · simp [List.takeWhile_cons, hc]
      · simp [List.dropWhile_cons, hc]
  | cons x xs' ih =>
    have hx := hxs x (List.mem_cons_self _ _)
    have ihh := ih (fun c hc => hxs c (List.mem_cons_of_mem _ hc))
    constructor
    · simp [List.takeWhile_cons, hx, ihh.1]
    · simp [List.dropWhile_cons, hx, ihh.2]

lemma kindChars_head_not_digit (k : CompType) (tail : List Char) :
    ∀ c, (kindChars k ++ tail).head? = some c → c.isDigit = false := by
  cases k <;>
    (intro c hc
     simp only [kindChars, List.cons_append, List.head?] at hc
     rw [← Option.some_inj.mp hc]
     decide)

lemma parseKind_kindChars (k : CompType) (tail : List Char)
    (htail : ∀ c ∈ tail, c.isDigit = true) :
    parseKind (kindChars k ++ tail) = some (k, tail) := by
  cases k
  case F => simp [parseKind, kindChars, List.isPrefixOf]
  case W => simp [parseKind, kindChars, List.isPrefixOf]
  case BW => simp [parseKind, kindChars, List.isPrefixOf]
  case UNSHARD => simp [parseKind, kindChars, List.isPrefixOf]
  case RESHARD => simp [parseKind, kindChars, List.isPrefixOf]
  case SEND_F => simp [parseKind, kindChars, List.isPrefixOf]
  case SEND_B => simp [parseKind, kindChars, List.isPrefixOf]
  case RECV_F => simp [parseKind, kindChars, List.isPrefixOf]
  case RECV_B => simp [parseKind, kindChars, List.isPrefixOf]
  case B =>
    cases tail with
    | nil => simp [parseKind, kindChars, List.isPrefixOf]
    | cons c cs =>
      have hc := htail c (List.mem_cons_self _ _)
      have hW : ¬('W' = c) := by
        intro hcc
        rw [← hcc] at hc
        exact absurd hc (by decide)
      simp [parseKind, kindChars, List.isPrefixOf, hW]

lemma takeWhile_digits_self (xs : List Char) (hxs : ∀ c ∈ xs, c.isDigit = true) :
    xs.takeWhile Char.isDigit = xs ∧ xs.dropWhile Char.isDigit = [] := by
  have h := takeWhile_dropWhile_digits xs [] hxs (by intro c hc; simp at hc)
  simpa using h

lemma fromChars_toChars (a : Action) (h : a.mb.isSome = hasMb a.kind) :
    fromChars a.toChars = some a := by
  cases a with
  | mk st k mb =>
    have hne : (natChars st).isEmpty = false :=
      List.isEmpty_eq_false.mpr (natChars_ne_nil st)
    cases mb with
    | none =>
      have hk : hasMb k = false := by simpa using h.symm
      have ht : Action.toChars ⟨st, k, none⟩ = natChars st ++ (kindChars k ++ []) := by
        simp [Action.toChars]
      have hsplit := takeWhile_dropWhile_digits (natChars st) (kindChars k ++ [])
        (natChars_all_digit st) (kindChars_head_not_digit k [])
      rw [ht]
      simp only [fromChars, hsplit.1, hsplit.2, hne,
        parseKind_kindChars k [] (by intro c hc; simp at hc)]
      simp [hk, digitsVal_natChars]
    | some m =>
      have hk : hasMb k = true := by simpa using h.symm
      have ht : Action.toChars ⟨st, k, some m⟩ =
          natChars st ++ (kindChars k ++ natChars m) := by
        simp [Action.toChars]
      have hsplit := takeWhile_dropWhile_digits (natChars st)
        (kindChars k ++ natChars m)
        (natChars_all_digit st) (kindChars_head_not_digit k (natChars m))
      have hmb := takeWhile_digits_self (natChars m) (natChars_all_digit m)
      rw [ht]
      simp only [fromChars, hsplit.1, hsplit.2, hne,
        parseKind_kindChars k (natChars m) (natChars_all_digit m),
        hmb.1, hmb.2]
      simp [hk, digitsVal_natChars,
        List.isEmpty_eq_false.mpr (natChars_ne_nil m)]

lemma from_str_format (a : Action) (h : a.mb.isSome = hasMb a.kind) :
    from_str (Action.format a) = some (Slot.act a) := by
  rw [from_str]
  have hdata : (Action.format a).data = a.toChars := rfl
  rw [hdata]
  have hblank : a.toChars.all (fun c => decide (c = ' ')) = false := by
    rw [List.all_eq_false]
    rcases hcs : natChars a.stage with _ | ⟨c, cr⟩
    · exact absurd hcs (natChars_ne_nil a.stage)
    · have hcdigit : c.isDigit = true := by
        apply natChars_all_digit a.stage
        rw [hcs]
        exact List.mem_cons_self _ _
      refine ⟨c, ?_, ?_⟩
      · rw [Action.toChars, hcs]
        exact List.mem_append_left _ (List.mem_cons_self _ _)
      · simp only [decide_eq_true_eq]
        intro hcc
        rw [hcc] at hcdigit
        exact absurd hcdigit (by decide)
  rw [if_neg (by rw [hblank]; exact Bool.false_ne_true)]
  rw [fromChars_toChars a h]
  rfl

/-- C6: for every legal Action (microbatch present exactly when the kind
carries one), `parse(format(a)) = a`; and each of the seven reference
tokens parses to the stated Action and formats back to the identical
string. -/
theorem C6_action_round_trip :
    (∀ a : Action, a.mb.isSome = hasMb a.kind →
      from_str (Action.format a) = some (Slot.act a)) ∧
    (from_str "1F0" = some (.act ⟨1, .F, some 0⟩) ∧
      Action.format ⟨1, .F, some 0⟩ = "1F0") ∧
    (from_str "2B1" = some (.act ⟨2, .B, some 1⟩) ∧
      Action.format ⟨2, .B, some 1⟩ = "2B1") ∧
    (from_str "0W3" = some (.act ⟨0, .W, some 3⟩) ∧
      Action.format ⟨0, .W, some 3⟩ = "0W3") ∧
    (from_str "1UNSHARD" = some (.act ⟨1, .UNSHARD, none⟩) ∧
      Action.format ⟨1, .UNSHARD, none⟩ = "1UNSHARD") ∧
    (from_str "3RESHARD" = some (.act ⟨3, .RESHARD, none⟩) ∧
      Action.format ⟨3, .RESHARD, none⟩ = "3RESHARD") ∧
    (from_str "2SEND_B2" = some (.act ⟨2, .SEND_B, some 2⟩) ∧
      Action.format ⟨2, .SEND_B, some 2⟩ = "2SEND_B2") ∧
    (from_str "1RECV_F1" = some (.act ⟨1, .RECV_F, some 1⟩) ∧
      Action.format ⟨1, .RECV_F, some 1⟩ = "1RECV_F1") :=
  ⟨from_str_format, by decide, by decide, by decide, by decide, by decide,
    by decide, by decide⟩

/-- Witness for C6: the universal round-trip clause at a concrete legal
Action. -/
theorem C6_action_round_trip_witness :
    from_str (Action.format ⟨5, .BW, some 7⟩) = some (Slot.act ⟨5, .BW, some 7⟩) :=
  C6_action_round_trip.1 ⟨5, .BW, some 7⟩ (by decide)

/-- C5: whenever `num_microbatches % group_size ≠ 0`, the Interleaved 1F1B
generator returns a configuration error (so no schedule is built), while
the Flexible Interleaved generator accepts the configuration and builds a
schedule with one timeline per rank. -/
theorem C5_interleaved_requires_divisibility (L M gs : Nat) (h : M % gs ≠ 0) :
    ScheduleInterleaved1F1B L M gs =
        Except.error ConfigurationError.nonDivisibleMicrobatches ∧
      (∀ sch, ScheduleInterleaved1F1B L M gs ≠ Except.ok sch) ∧
      (ScheduleFlexibleInterleaved1F1B L M gs).length = gs := by
  have he : ScheduleInterleaved1F1B L M gs =
      Except.error ConfigurationError.nonDivisibleMicrobatches := by
    rw [ScheduleInterleaved1F1B, if_neg h]
  refine ⟨he, fun sch hc => ?_, by simp [ScheduleFlexibleInterleaved1F1B]⟩
  rw [he] at hc
  exact Except.noConfusion hc

/-- Witness for C5 at the test configuration (2, 3, 4). -/
theorem C5_interleaved_requires_divisibility_witness :
    ScheduleInterleaved1F1B 2 3 4 =
        Except.error ConfigurationError.nonDivisibleMicrobatches ∧
      (ScheduleFlexibleInterleaved1F1B 2 3 4).length = 4 := by
  have h := C5_interleaved_requires_divisibility 2 3 4 (by decide)
  exact ⟨h.1, h.2.2⟩

/-! ### Lemmas about the send/recv-insertion pass -/

/-- Compute kinds (forward, backward, weight-update and the fused form). -/
def isComputeKind : CompType → Bool
  | .F => true
  | .B => true
  | .W => true
  | .BW => true
  | _ => false

/-- The comm/compute block the send/recv pass emits for one compute action. -/
def srBlock (s2r : Nat → Nat) (nS r : Nat) (a : Action) : List Action :=
  recvsFor s2r nS r a ++ a :: sendsFor s2r nS r a

lemma sendRecvRank_eq_flatMap (s2r : Nat → Nat) (nS r : Nat) (l : List Slot) :
    sendRecvRank s2r nS r l = (acts l).flatMap (srBlock s2r nS r) := rfl

lemma filter_compute_recvsFor (s2r : Nat → Nat) (nS r : Nat) (a : Action) :
    (recvsFor s2r nS r a).filter (fun x => isComputeKind x.kind) = [] := by
  cases a with
  | mk st k mb =>
    cases k <;> simp [recvsFor, isComputeKind] <;>
      (intro a _ _ ha; subst ha; rfl)

lemma filter_compute_sendsFor (s2r : Nat → Nat) (nS r : Nat) (a : Action) :
    (sendsFor s2r nS r a).filter (fun x => isComputeKind x.kind) = [] := by
  cases a with
  | mk st k mb =>
    cases k <;> simp [sendsFor, isComputeKind] <;>
      (intro a _ _ ha; subst ha; rfl)

lemma sendRecvRank_filter_compute (s2r : Nat → Nat) (nS r : Nat) (l : List Slot) :
    (sendRecvRank s2r nS r l).filter (fun a => isComputeKind a.kind) =
      (acts l).filter (fun a => isComputeKind a.kind) := by
  rw [sendRecvRank_eq_flatMap]
  induction acts l with
  | nil => rfl
  | cons a t ih =>
    rw [List.flatMap_cons, List.filter_append, List.filter_cons, ih]
    rw [srBlock, List.filter_append, List.filter_cons,
      filter_compute_recvsFor, filter_compute_sendsFor]
    split_ifs <;> simp

lemma sendRecvRank_block_split (s2r : Nat → Nat) (nS r : Nat) (l : List Slot)
    (a : Action) (ha : a ∈ acts l) :
    ∃ x y, sendRecvRank s2r nS r l =
      x ++ (recvsFor s2r nS r a ++ a :: sendsFor s2r nS r a) ++ y := by
  obtain ⟨u, v, huv⟩ := List.append_of_mem ha
  refine ⟨u.flatMap (srBlock s2r nS r), v.flatMap (srBlock s2r nS r), ?_⟩
  rw [sendRecvRank_eq_flatMap, huv, List.flatMap_append, List.flatMap_cons,
    srBlock]
  simp only [List.cons_append, List.nil_append, List.append_assoc]

/-- C4: the send/recv pass splices RECV_FORWARD(s,m) immediately before any
FORWARD(s,m) whose producer stage s-1 exists on another rank, and
SEND_FORWARD(s,m) immediately after any FORWARD(s,m) whose consumer stage
s+1 exists on another rank (symmetrically RECV_BACKWARD before / SEND_BACKWARD
after BACKWARD), and it never reorders a rank's original compute actions:
the compute filter of each output timeline is exactly the rank's original
compute sequence. -/
theorem C4_send_recv_placement :
    (∀ (sched : List (List Slot)) (s2r : Nat → Nat) (nS r : Nat)
        (lr : List Action), (add_send_recv sched s2r nS)[r]? = some lr →
      lr.filter (fun a => isComputeKind a.kind) =
        (acts (sched.getD r [])).filter (fun a => isComputeKind a.kind)) ∧
    (∀ (s2r : Nat → Nat) (nS r : Nat) (l : List Slot) (s : Nat) (mb : Option Nat),
      (⟨s, .F, mb⟩ : Action) ∈ acts l → 0 < s → s2r (s - 1) ≠ r →
      ∃ x y, sendRecvRank s2r nS r l =
        x ++ ⟨s, .RECV_F, mb⟩ :: ⟨s, .F, mb⟩ :: y) ∧
    (∀ (s2r : Nat → Nat) (nS r : Nat) (l : List Slot) (s : Nat) (mb : Option Nat),
      (⟨s, .F, mb⟩ : Action) ∈ acts l → s + 1 < nS → s2r (s + 1) ≠ r →
      ∃ x y, sendRecvRank s2r nS r l =
        x ++ ⟨s, .F, mb⟩ :: ⟨s, .SEND_F, mb⟩ :: y) ∧
    (∀ (s2r : Nat → Nat) (nS r : Nat) (l : List Slot) (s : Nat) (mb : Option Nat),
      (⟨s, .B, mb⟩ : Action) ∈ acts l → s + 1 < nS → s2r (s + 1) ≠ r →
      ∃ x y, sendRecvRank s2r nS r l =
        x ++ ⟨s, .RECV_B, mb⟩ :: ⟨s, .B, mb⟩ :: y) ∧
    (∀ (s2r : Nat → Nat) (nS r : Nat) (l : List Slot) (s : Nat) (mb : Option Nat),
      (⟨s, .B, mb⟩ : Action) ∈ acts l → 0 < s → s2r (s - 1) ≠ r →
      ∃ x y, sendRecvRank s2r nS r l =
        x ++ ⟨s, .B, mb⟩ :: ⟨s, .SEND_B, mb⟩ :: y) := by
  refine ⟨?_, ?_, ?_, ?_, ?_⟩
  · intro sched s2r nS r lr hlr
    rw [add_send_recv, List.getElem?_map] at hlr
    by_cases hr : r < sched.length
    · rw [List.getElem?_range hr] at hlr
      rw [Option.map_some'] at hlr
      rw [← Option.some_inj.mp hlr]
      exact sendRecvRank_filter_compute s2r nS r (sched.getD r [])
    · rw [List.getElem?_eq_none (by simpa using hr)] at hlr
      exact absurd hlr (by simp)
  · intro s2r nS r l s mb ha h1 h2
    obtain ⟨x, y, hxy⟩ := sendRecvRank_block_split s2r nS r l ⟨s, .F, mb⟩ ha
    have hrecv : recvsFor s2r nS r ⟨s, .F, mb⟩ = [⟨s, .RECV_F, mb⟩] := by
      simp [recvsFor, h1, h2]
    refine ⟨x, sendsFor s2r nS r ⟨s, .F, mb⟩ ++ y, ?_⟩
    rw [hxy, hrecv]
    simp only [List.cons_append, List.nil_append, List.append_assoc]
  · intro s2r nS r l s mb ha h1 h2
    obtain ⟨x, y, hxy⟩ := sendRecvRank_block_split s2r nS r l ⟨s, .F, mb⟩ ha
    have hsend : sendsFor s2r nS r ⟨s, .F, mb⟩ = [⟨s, .SEND_F, mb⟩] := by
      simp [sendsFor, h1, h2]
    refine ⟨x ++ recvsFor s2r nS r ⟨s, .F, mb⟩, y, ?_⟩
    rw [hxy, hsend]
    simp only [List.cons_append, List.nil_append, List.append_assoc]
  · intro s2r nS r l s mb ha h1 h2
    obtain ⟨x, y, hxy⟩ := sendRecvRank_block_split s2r nS r l ⟨s, .B, mb⟩ ha
    have hrecv : recvsFor s2r nS r ⟨s, .B, mb⟩ = [⟨s, .RECV_B, mb⟩] := by
      simp [recvsFor, h1, h2]
    refine ⟨x, sendsFor s2r nS r ⟨s, .B, mb⟩ ++ y, ?_⟩
    rw [hxy, hrecv]
    simp only [List.cons_append, List.nil_append, List.append_assoc]
  · intro s2r nS r l s mb ha h1 h2
    obtain ⟨x, y, hxy⟩ := sendRecvRank_block_split s2r nS r l ⟨s, .B, mb⟩ ha
    have hsend : sendsFor s2r nS r ⟨s, .B, mb⟩ = [⟨s, .SEND_B, mb⟩] := by
      simp [sendsFor, h1, h2]
    refine ⟨x ++ recvsFor s2r nS r ⟨s, .B, mb⟩, y, ?_⟩
    rw [hxy, hsend]
    simp only [List.cons_append, List.nil_append, List.append_assoc]

lemma recvsFor_kinds (s2r : Nat → Nat) (nS r : Nat) (a : Action) :
    ∀ x ∈ recvsFor s2r nS r a, x.kind = .RECV_F ∨ x.kind = .RECV_B := by
  cases a with
  | mk st k mb =>
    cases k <;> simp only [recvsFor] <;> (try split_ifs) <;> simp

lemma sendsFor_kinds (s2r : Nat → Nat) (nS r : Nat) (a : Action) :
    ∀ x ∈ sendsFor s2r nS r a, x.kind = .SEND_F ∨ x.kind = .SEND_B := by
  cases a with
  | mk st k mb =>
    cases k <;> simp only [sendsFor] <;> (try split_ifs) <;> simp

lemma count_zero_of_kind_ne (c : Action) (l : List Action)
    (h : ∀ x ∈ l, x.kind ≠ c.kind) : List.count c l = 0 := by
  rw [List.count_eq_zero]
  intro hm
  exact h c hm rfl

lemma beq_false_of_kind_ne (a c : Action) (h : a.kind ≠ c.kind) :
    (a == c) = false := by
  rw [beq_eq_false_iff_ne]
  intro hc
  rw [hc] at h
  exact h rfl

lemma count_sendsFor_sendF (s2r : Nat → Nat) (nS r s m : Nat) (a : Action) :
    List.count (⟨s, .SEND_F, some m⟩ : Action) (sendsFor s2r nS r a) =
      if a = ⟨s, .F, some m⟩ ∧ s + 1 < nS ∧ s2r (s + 1) ≠ r then 1 else 0 := by
  cases a with
  | mk st k mb =>
    cases k
    case F =>
      simp only [sendsFor]
      by_cases hm : st = s ∧ mb = some m
      · obtain ⟨h1, h2⟩ := hm
        subst h1
        subst h2
        split_ifs with hc1 hc2 <;>
          simp_all [List.count_singleton, List.count_nil]
      · have hne : ¬((⟨st, .F, mb⟩ : Action) = ⟨s, .F, some m⟩ ∧
            s + 1 < nS ∧ s2r (s + 1) ≠ r) := by
          intro hc
          rw [Action.mk.injEq] at hc
          exact hm ⟨hc.1.1, hc.1.2.2⟩
        rw [if_neg hne]
        split_ifs <;>
          simp_all [List.count_singleton, List.count_nil, Action.mk.injEq]
    all_goals
      (simp only [sendsFor]
       split_ifs <;>
        simp_all [List.count_singleton, List.count_nil, Action.mk.injEq])

lemma count_recvsFor_recvF (s2r : Nat → Nat) (nS r s m : Nat) (a : Action) :
    List.count (⟨s, .RECV_F, some m⟩ : Action) (recvsFor s2r nS r a) =
      if a = ⟨s, .F, some m⟩ ∧ 0 < s ∧ s2r (s - 1) ≠ r then 1 else 0 := by
  cases a with
  | mk st k mb =>
    cases k
    case F =>
      simp only [recvsFor]
      by_cases hm : st = s ∧ mb = some m
      · obtain ⟨h1, h2⟩ := hm
        subst h1
        subst h2
        split_ifs with hc1 hc2 <;>
          simp_all [List.count_singleton, List.count_nil]
      · have hne : ¬((⟨st, .F, mb⟩ : Action) = ⟨s, .F, some m⟩ ∧
            0 < s ∧ s2r (s - 1) ≠ r) := by
          intro hc
          rw [Action.mk.injEq] at hc
          exact hm ⟨hc.1.1, hc.1.2.2⟩
        rw [if_neg hne]
        split_ifs <;>
          simp_all [List.count_singleton, List.count_nil, Action.mk.injEq]
    all_goals
      (simp only [recvsFor]
       split_ifs <;>
        simp_all [List.count_singleton, List.count_nil, Action.mk.injEq])

lemma count_sendsFor_sendB (s2r : Nat → Nat) (nS r s m : Nat) (a : Action) :
    List.count (⟨s, .SEND_B, some m⟩ : Action) (sendsFor s2r nS r a) =
      if a = ⟨s, .B, some m⟩ ∧ 0 < s ∧ s2r (s - 1) ≠ r then 1 else 0 := by
  cases a with
  | mk st k mb =>
    cases k
    case B =>
      simp only [sendsFor]
      by_cases hm : st = s ∧ mb = some m
      · obtain ⟨h1, h2⟩ := hm
        subst h1
        subst h2
        split_ifs with hc1 hc2 <;>
          simp_all [List.count_singleton, List.count_nil]
      · have hne : ¬((⟨st, .B, mb⟩ : Action) = ⟨s, .B, some m⟩ ∧
            0 < s ∧ s2r (s - 1) ≠ r) := by
          intro hc
          rw [Action.mk.injEq] at hc
          exact hm ⟨hc.1.1, hc.1.2.2⟩
        rw [if_neg hne]
        split_ifs <;>
          simp_all [List.count_singleton, List.count_nil, Action.mk.injEq]
    all_goals
      (simp only [sendsFor]
       split_ifs <;>
        simp_all [List.count_singleton, List.count_nil, Action.mk.injEq])

lemma count_recvsFor_recvB (s2r : Nat → Nat) (nS r s m : Nat) (a : Action) :
    List.count (⟨s, .RECV_B, some m⟩ : Action) (recvsFor s2r nS r a) =
      if a = ⟨s, .B, some m⟩ ∧ s + 1 < nS ∧ s2r (s + 1) ≠ r then 1 else 0 := by
  cases a with
  | mk st k mb =>
    cases k
    case B =>
      simp only [recvsFor]
      by_cases hm : st = s ∧ mb = some m
      · obtain ⟨h1, h2⟩ := hm
        subst h1
        subst h2
        split_ifs with hc1 hc2 <;>
          simp_all [List.count_singleton, List.count_nil]
      · have hne : ¬((⟨st, .B, mb⟩ : Action) = ⟨s, .B, some m⟩ ∧
            s + 1 < nS ∧ s2r (s + 1) ≠ r) := by
          intro hc
          rw [Action.mk.injEq] at hc
          exact hm ⟨hc.1.1, hc.1.2.2⟩
        rw [if_neg hne]
        split_ifs <;>
          simp_all [List.count_singleton, List.count_nil, Action.mk.injEq]
    all_goals
      (simp only [recvsFor]
       split_ifs <;>
        simp_all [List.count_singleton, List.count_nil, Action.mk.injEq])

lemma kind_ne_of_compute (a : Action) (k : CompType)
    (ha : isComputeKind a.kind = true) (hk : isComputeKind k = false) :
    a.kind ≠ k := by
  intro h
  rw [h, hk] at ha
  exact Bool.noConfusion ha

lemma count_sendF_rank (s2r : Nat → Nat) (nS r s m : Nat) (la : List Action)
    (hla : ∀ a ∈ la, isComputeKind a.kind = true) :
    List.count (⟨s, .SEND_F, some m⟩ : Action) (la.flatMap (srBlock s2r nS r)) =
      if s + 1 < nS ∧ s2r (s + 1) ≠ r then
        List.count (⟨s, .F, some m⟩ : Action) la else 0 := by
  induction la with
  | nil => simp only [List.flatMap_nil, List.count_nil, if_neg, ite_self]
  | cons a t ih =>
    have hz : List.count (⟨s, .SEND_F, some m⟩ : Action) (recvsFor s2r nS r a) = 0 := by
      apply count_zero_of_kind_ne
      intro x hx
      rcases recvsFor_kinds s2r nS r a x hx with h | h <;> simp [h]
    have hmid : (a == (⟨s, .SEND_F, some m⟩ : Action)) = false :=
      beq_false_of_kind_ne _ _
        (kind_ne_of_compute a _ (hla a (List.mem_cons_self _ _)) rfl)
    rw [List.flatMap_cons, List.count_append, srBlock, List.count_append,
      List.count_cons, hz, hmid, count_sendsFor_sendF,
      ih (fun x hx => hla x (List.mem_cons_of_mem _ hx)), List.count_cons]
    by_cases hc : s + 1 < nS ∧ s2r (s + 1) ≠ r <;>
      by_cases ha : a = (⟨s, .F, some m⟩ : Action) <;>
        simp [hc, ha] <;> omega

lemma count_recvF_rank (s2r : Nat → Nat) (nS r s m : Nat) (la : List Action)
    (hla : ∀ a ∈ la, isComputeKind a.kind = true) :
    List.count (⟨s, .RECV_F, some m⟩ : Action) (la.flatMap (srBlock s2r nS r)) =
      if 0 < s ∧ s2r (s - 1) ≠ r then
        List.count (⟨s, .F, some m⟩ : Action) la else 0 := by
  induction la with
  | nil => simp only [List.flatMap_nil, List.count_nil, if_neg, ite_self]
  | cons a t ih =>
    have hz : List.count (⟨s, .RECV_F, some m⟩ : Action) (sendsFor s2r nS r a) = 0 := by
      apply count_zero_of_kind_ne
      intro x hx
      rcases sendsFor_kinds s2r nS r a x hx with h | h <;> simp [h]
    have hmid : (a == (⟨s, .RECV_F, some m⟩ : Action)) = false :=
      beq_false_of_kind_ne _ _
        (kind_ne_of_compute a _ (hla a (List.mem_cons_self _ _)) rfl)
    rw [List.flatMap_cons, List.count_append, srBlock, List.count_append,
      List.count_cons, hz, hmid, count_recvsFor_recvF,
      ih (fun x hx => hla x (List.mem_cons_of_mem _ hx)), List.count_cons]
    by_cases hc : 0 < s ∧ s2r (s - 1) ≠ r <;>
      by_cases ha : a = (⟨s, .F, some m⟩ : Action) <;>
        simp [hc, ha] <;> omega

lemma count_sendB_rank (s2r : Nat → Nat) (nS r s m : Nat) (la : List Action)
    (hla : ∀ a ∈ la, isComputeKind a.kind = true) :
    List.count (⟨s, .SEND_B, some m⟩ : Action) (la.flatMap (srBlock s2r nS r)) =
      if 0 < s ∧ s2r (s - 1) ≠ r then
        List.count (⟨s, .B, some m⟩ : Action) la else 0 := by
  induction la with
  | nil => simp only [List.flatMap_nil, List.count_nil, if_neg, ite_self]
  | cons a t ih =>
    have hz : List.count (⟨s, .SEND_B, some m⟩ : Action) (recvsFor s2r nS r a) = 0 := by
      apply count_zero_of_kind_ne
      intro x hx
      rcases recvsFor_kinds s2r nS r a x hx with h | h <;> simp [h]
    have hmid : (a == (⟨s, .SEND_B, some m⟩ : Action)) = false :=
      beq_false_of_kind_ne _ _
        (kind_ne_of_compute a _ (hla a (List.mem_cons_self _ _)) rfl)
    rw [List.flatMap_cons, List.count_append, srBlock, List.count_append,
      List.count_cons, hz, hmid, count_sendsFor_sendB,
      ih (fun x hx => hla x (List.mem_cons_of_mem _ hx)), List.count_cons]
    by_cases hc : 0 < s ∧ s2r (s - 1) ≠ r <;>
      by_cases ha : a = (⟨s, .B, some m⟩ : Action) <;>
        simp [hc, ha] <;> omega

lemma count_recvB_rank (s2r : Nat → Nat) (nS r s m : Nat) (la : List Action)
    (hla : ∀ a ∈ la, isComputeKind a.kind = true) :
    List.count (⟨s, .RECV_B, some m⟩ : Action) (la.flatMap (srBlock s2r nS r)) =
      if s + 1 < nS ∧ s2r (s + 1) ≠ r then
        List.count (⟨s, .B, some m⟩ : Action) la else 0 := by
  induction la with
  | nil => simp only [List.flatMap_nil, List.count_nil, if_neg, ite_self]
  | cons a t ih =>
    have hz : List.count (⟨s, .RECV_B, some m⟩ : Action) (sendsFor s2r nS r a) = 0 := by
      apply count_zero_of_kind_ne
      intro x hx
      rcases sendsFor_kinds s2r nS r a x hx with h | h <;> simp [h]
    have hmid : (a == (⟨s, .RECV_B, some m⟩ : Action)) = false :=
      beq_false_of_kind_ne _ _
        (kind_ne_of_compute a _ (hla a (List.mem_cons_self _ _)) rfl)
    rw [List.flatMap_cons, List.count_append, srBlock, List.count_append,
      List.count_cons, hz, hmid, count_recvsFor_recvB,
      ih (fun x hx => hla x (List.mem_cons_of_mem _ hx)), List.count_cons]
    by_cases hc : s + 1 < nS ∧ s2r (s + 1) ≠ r <;>
      by_cases ha : a = (⟨s, .B, some m⟩ : Action) <;>
        simp [hc, ha] <;> omega

lemma sum_range_indicator (n v : Nat) (f : Nat → Nat) :
    ((List.range n).map (fun r => if v = r then f r else 0)).sum =
      if v < n then f v else 0 := by
  induction n with
  | zero => simp
  | succ n ih =>
    rw [List.range_succ, List.map_append, List.sum_append, ih]
    by_cases hv : v = n
    · subst hv
      simp [Nat.lt_irrefl, Nat.lt_succ_self]
    · by_cases hlt : v < n
      · simp [hlt, hv, Nat.lt_succ_of_lt hlt]
      · have hns : ¬v < n + 1 := by omega
        simp [hlt, hv, hns]

lemma totalCount_add_send_recv (c : Action) (sched : List (List Slot))
    (s2r : Nat → Nat) (nS : Nat) :
    totalCount c (add_send_recv sched s2r nS) =
      ((List.range sched.length).map
        (fun r => List.count c (sendRecvRank s2r nS r (sched.getD r [])))).sum := by
  rw [totalCount, add_send_recv, List.map_map]
  rfl

/-- Modelled from the spec: §4.2/§4.7.  Well-formedness of a multi-rank
compute schedule: only compute actions, and each in-range (stage, mb)
pair has exactly one FORWARD and one BACKWARD, on the rank owning the
stage (ranks being the list indices, stage ownership given by `s2r`). -/
def wellFormedSched (sched : List (List Slot)) (s2r : Nat → Nat)
    (nS nM : Nat) : Prop :=
  (∀ r, r < sched.length →
    ∀ a ∈ acts (sched.getD r []), isComputeKind a.kind = true) ∧
  (∀ s, s < nS → s2r s < sched.length) ∧
  (∀ s, s < nS → ∀ m, m < nM → ∀ r, r < sched.length →
    (List.count (⟨s, .F, some m⟩ : Action) (acts (sched.getD r [])) =
      if s2r s = r then 1 else 0) ∧
    (List.count (⟨s, .B, some m⟩ : Action) (acts (sched.getD r [])) =
      if s2r s = r then 1 else 0))

instance instDecidableWellFormedSched (sched : List (List Slot))
    (s2r : Nat → Nat) (nS nM : Nat) :
    Decidable (wellFormedSched sched s2r nS nM) := by
  unfold wellFormedSched
  infer_instance

lemma total_comm_count (sched : List (List Slot)) (s2r : Nat → Nat) (nS : Nat)
    (hkinds : ∀ r, r < sched.length →
      ∀ a ∈ acts (sched.getD r []), isComputeKind a.kind = true)
    (c base : Action) (cond : Nat → Prop) [DecidablePred cond]
    (hblock : ∀ r (la : List Action), (∀ a ∈ la, isComputeKind a.kind = true) →
      List.count c (la.flatMap (srBlock s2r nS r)) =
        if cond r then List.count base la else 0)
    (v : Nat) (hv : v < sched.length)
    (hbase : ∀ r, r < sched.length →
      List.count base (acts (sched.getD r [])) = if v = r then 1 else 0) :
    totalCount c (add_send_recv sched s2r nS) = if cond v then 1 else 0 := by
  rw [totalCount_add_send_recv]
  have hpt : ∀ r ∈ List.range sched.length,
      List.count c (sendRecvRank s2r nS r (sched.getD r [])) =
        if v = r then (if cond r then 1 else 0) else 0 := by
    intro r hr
    rw [List.mem_range] at hr
    rw [sendRecvRank_eq_flatMap, hblock r _ (hkinds r hr), hbase r hr]
    by_cases h1 : cond r <;> by_cases h2 : v = r <;> simp [h1, h2]
  rw [List.map_congr_left hpt, sum_range_indicator, if_pos hv]

lemma sum_shift (n : Nat) (f g : Nat → Nat)
    (hfg : ∀ s, s + 1 < n → f s = g (s + 1))
    (htop : 0 < n → f (n - 1) = 0) (h0 : 0 < n → g 0 = 0) :
    ∑ s ∈ Finset.range n, f s = ∑ s ∈ Finset.range n, g s := by
  cases n with
  | zero => rfl
  | succ k =>
    rw [Finset.sum_range_succ, Finset.sum_range_succ']
    have ht : f k = 0 := by
      have := htop (Nat.succ_pos k)
      simpa using this
    have hz : g 0 = 0 := h0 (Nat.succ_pos k)
    rw [ht, hz, Nat.add_zero, Nat.add_zero]
    exact Finset.sum_congr rfl
      (fun s hs => hfg s (by rw [Finset.mem_range] at hs; omega))

/-- C3: on a well-formed multi-rank compute schedule, the send/recv pass
pairs communications exactly: per (stage, microbatch) pair the number of
SEND_FORWARD(s,m) actions equals the number of RECV_FORWARD(s+1,m)
actions (each at most one), likewise SEND_BACKWARD(s+1,m) with
RECV_BACKWARD(s,m); the grand totals of SEND_FORWARD and RECV_FORWARD
actions (and of SEND_BACKWARD and RECV_BACKWARD actions) are equal, so no
send or recv dangles; and the comm actions of a pair live only on the rank
owning the corresponding compute action. -/
theorem C3_send_recv_pairing (sched : List (List Slot)) (s2r : Nat → Nat)
    (nS nM : Nat) (hwf : wellFormedSched sched s2r nS nM) :
    (∀ s m, s + 1 < nS → m < nM →
      totalCount ⟨s, .SEND_F, some m⟩ (add_send_recv sched s2r nS) =
        totalCount ⟨s + 1, .RECV_F, some m⟩ (add_send_recv sched s2r nS) ∧
      totalCount ⟨s, .SEND_F, some m⟩ (add_send_recv sched s2r nS) ≤ 1) ∧
    (∀ s m, s + 1 < nS → m < nM →
      totalCount ⟨s + 1, .SEND_B, some m⟩ (add_send_recv sched s2r nS) =
        totalCount ⟨s, .RECV_B, some m⟩ (add_send_recv sched s2r nS) ∧
      totalCount ⟨s + 1, .SEND_B, some m⟩ (add_send_recv sched s2r nS) ≤ 1) ∧
    (∑ s ∈ Finset.range nS, ∑ m ∈ Finset.range nM,
        totalCount ⟨s, .SEND_F, some m⟩ (add_send_recv sched s2r nS) =
      ∑ s ∈ Finset.range nS, ∑ m ∈ Finset.range nM,
        totalCount ⟨s, .RECV_F, some m⟩ (add_send_recv sched s2r nS)) ∧
    (∑ s ∈ Finset.range nS, ∑ m ∈ Finset.range nM,
        totalCount ⟨s, .SEND_B, some m⟩ (add_send_recv sched s2r nS) =
      ∑ s ∈ Finset.range nS, ∑ m ∈ Finset.range nM,
        totalCount ⟨s, .RECV_B, some m⟩ (add_send_recv sched s2r nS)) ∧
    (∀ s m r lr, s < nS → m < nM →
      (add_send_recv sched s2r nS)[r]? = some lr → s2r s ≠ r →
      List.count (⟨s, .SEND_F, some m⟩ : Action) lr = 0 ∧
      List.count (⟨s, .RECV_F, some m⟩ : Action) lr = 0 ∧
      List.count (⟨s, .SEND_B, some m⟩ : Action) lr = 0 ∧
      List.count (⟨s, .RECV_B, some m⟩ : Action) lr = 0) := by
  obtain ⟨hkinds, howner, hcounts⟩ := hwf
  have key_sf : ∀ s m, s < nS → m < nM →
      totalCount ⟨s, .SEND_F, some m⟩ (add_send_recv sched s2r nS) =
        if s + 1 < nS ∧ s2r (s + 1) ≠ s2r s then 1 else 0 :=
    fun s m hs hm =>
      total_comm_count sched s2r nS hkinds _ ⟨s, .F, some m⟩
        (fun r => s + 1 < nS ∧ s2r (s + 1) ≠ r)
        (fun r la hla => count_sendF_rank s2r nS r s m la hla)
        (s2r s) (howner s hs) (fun r hr => (hcounts s hs m hm r hr).1)
  have key_rf : ∀ s m, s < nS → m < nM →
      totalCount ⟨s, .RECV_F, some m⟩ (add_send_recv sched s2r nS) =
        if 0 < s ∧ s2r (s - 1) ≠ s2r s then 1 else 0 :=
    fun s m hs hm =>
      total_comm_count sched s2r nS hkinds _ ⟨s, .F, some m⟩
        (fun r => 0 < s ∧ s2r (s - 1) ≠ r)
        (fun r la hla => count_recvF_rank s2r nS r s m la hla)
        (s2r s) (howner s hs) (fun r hr => (hcounts s hs m hm r hr).1)
  have key_sb : ∀ s m, s < nS → m < nM →
      totalCount ⟨s, .SEND_B, some m⟩ (add_send_recv sched s2r nS) =
        if 0 < s ∧ s2r (s - 1) ≠ s2r s then 1 else 0 :=
    fun s m hs hm =>
      total_comm_count sched s2r nS hkinds _ ⟨s, .B, some m⟩
        (fun r => 0 < s ∧ s2r (s - 1) ≠ r)
        (fun r la hla => count_sendB_rank s2r nS r s m la hla)
        (s2r s) (howner s hs) (fun r hr => (hcounts s hs m hm r hr).2)
  have key_rb : ∀ s m, s < nS → m < nM →
      totalCount ⟨s, .RECV_B, some m⟩ (add_send_recv sched s2r nS) =
        if s + 1 < nS ∧ s2r (s + 1) ≠ s2r s then 1 else 0 :=
    fun s m hs hm =>
      total_comm_count sched s2r nS hkinds _ ⟨s, .B, some m⟩
        (fun r => s + 1 < nS ∧ s2r (s + 1) ≠ r)
        (fun r la hla => count_recvB_rank s2r nS r s m la hla)
        (s2r s) (howner s hs) (fun r hr => (hcounts s hs m hm r hr).2)
  have pairF : ∀ s m, s + 1 < nS → m < nM →
      totalCount ⟨s, .SEND_F, some m⟩ (add_send_recv sched s2r nS) =
        totalCount ⟨s + 1, .RECV_F, some m⟩ (add_send_recv sched s2r nS) := by
    intro s m hs hm
    rw [key_sf s m (by omega) hm, key_rf (s + 1) m hs hm]
    simp only [Nat.add_sub_cancel]
    by_cases hx : s2r (s + 1) = s2r s
    · rw [if_neg (fun hc => hc.2 hx), if_neg (fun hc => hc.2 hx.symm)]
    · rw [if_pos ⟨hs, hx⟩, if_pos ⟨Nat.succ_pos s, fun hc => hx hc.symm⟩]
  have pairB : ∀ s m, s + 1 < nS → m < nM →
      totalCount ⟨s + 1, .SEND_B, some m⟩ (add_send_recv sched s2r nS) =
        totalCount ⟨s, .RECV_B, some m⟩ (add_send_recv sched s2r nS) := by
    intro s m hs hm
    rw [key_sb (s + 1) m hs hm, key_rb s m (by omega) hm]
    simp only [Nat.add_sub_cancel]
    by_cases hx : s2r (s + 1) = s2r s
    · rw [if_neg (fun hc => hc.2 hx.symm), if_neg (fun hc => hc.2 hx)]
    · rw [if_pos ⟨Nat.succ_pos s, fun hc => hx hc.symm⟩, if_pos ⟨hs, hx⟩]
  refine ⟨?_, ?_, ?_, ?_, ?_⟩
  · intro s m hs hm
    refine ⟨pairF s m hs hm, ?_⟩
    rw [key_sf s m (by omega) hm]
    split_ifs <;> omega
  · intro s m hs hm
    refine ⟨pairB s m hs hm, ?_⟩
    rw [key_sb (s + 1) m hs hm]
    split_ifs <;> omega
  · apply sum_shift
    · intro s hs
      exact Finset.sum_congr rfl (fun m hm =>
        pairF s m hs (Finset.mem_range.mp hm))
    · intro hn
      apply Finset.sum_eq_zero
      intro m hm
      rw [key_sf (nS - 1) m (by omega) (Finset.mem_range.mp hm)]
      rw [if_neg]
      intro hc
      omega
    · intro hn
      apply Finset.sum_eq_zero
      intro m hm
      rw [key_rf 0 m hn (Finset.mem_range.mp hm)]
      rw [if_neg]
      intro hc
      omega
  · symm
    apply sum_shift
    · intro s hs
      exact Finset.sum_congr rfl (fun m hm =>
        (pairB s m hs (Finset.mem_range.mp hm)).symm)
    · intro hn
      apply Finset.sum_eq_zero
      intro m hm
      rw [key_rb (nS - 1) m (by omega) (Finset.mem_range.mp hm)]
      rw [if_neg]
      intro hc
      omega
    · intro hn
      apply Finset.sum_eq_zero
      intro m hm
      rw [key_sb 0 m hn (Finset.mem_range.mp hm)]
      rw [if_neg]
      intro hc
      omega
  · intro s m r lr hs hm hlr hrne
    rw [add_send_recv, List.getElem?_map] at hlr
    by_cases hr : r < sched.length
    · rw [List.getElem?_range hr, Option.map_some'] at hlr
      have hlr' := Option.some_inj.mp hlr
      subst hlr'
      have hbaseF : List.count (⟨s, .F, some m⟩ : Action)
          (acts (sched.getD r [])) = 0 := by
        rw [(hcounts s hs m hm r hr).1, if_neg hrne]
      have hbaseB : List.count (⟨s, .B, some m⟩ : Action)
          (acts (sched.getD r [])) = 0 := by
        rw [(hcounts s hs m hm r hr).2, if_neg hrne]
      refine ⟨?_, ?_, ?_, ?_⟩
      · rw [sendRecvRank_eq_flatMap,
          count_sendF_rank s2r nS r s m _ (hkinds r hr), hbaseF]
        split_ifs <;> rfl
      · rw [sendRecvRank_eq_flatMap,
          count_recvF_rank s2r nS r s m _ (hkinds r hr), hbaseF]
        split_ifs <;> rfl
      · rw [sendRecvRank_eq_flatMap,
          count_sendB_rank s2r nS r s m _ (hkinds r hr), hbaseB]
        split_ifs <;> rfl
      · rw [sendRecvRank_eq_flatMap,
          count_recvB_rank s2r nS r s m _ (hkinds r hr), hbaseB]
        split_ifs <;> rfl
    · rw [List.getElem?_eq_none (by simpa using hr)] at hlr
      exact absurd hlr (by simp)

/-! ### Lemmas about the compute-schedule generators -/

lemma count_weave (a : Action) (fs bs : List (Nat × Nat)) :
    List.count a (weave fs bs) =
      List.count a (fs.map mkF) +
        List.count a (bs.flatMap (fun b => [mkB b, mkW b])) := by
  induction fs generalizing bs with
  | nil => simp [weave]
  | cons f fs' ih =>
    cases bs with
    | nil => simp [weave]
    | cons b bs' =>
      show List.count a (mkF f :: mkB b :: mkW b :: weave fs' bs') = _
      rw [List.count_cons, List.count_cons, List.count_cons, ih bs']
      rw [List.map_cons, List.count_cons, List.flatMap_cons]
      show _ = _ + List.count a ([mkB b, mkW b] ++ _)
      rw [List.count_append]
      rw [show List.count a [mkB b, mkW b] =
        (if (mkB b == a) = true then 1 else 0) +
          (if (mkW b == a) = true then 1 else 0) from by
          rw [List.count_cons, List.count_singleton]
          omega]
      omega

lemma count_oneFOneB (a : Action) (fwd bwd : List (Nat × Nat)) (w : Nat) :
    List.count a (oneFOneB fwd bwd w) =
      List.count a (fwd.map mkF) +
        List.count a (bwd.flatMap (fun b => [mkB b, mkW b])) := by
  rw [oneFOneB, List.count_append, count_weave]
  have h : List.count a ((fwd.take w).map mkF) +
      List.count a ((fwd.drop w).map mkF) = List.count a (fwd.map mkF) := by
    rw [← List.count_append, ← List.map_append, List.take_append_drop]
  omega

lemma count_mkF_flatMapBW (p : Nat × Nat) (bs : List (Nat × Nat)) :
    List.count (mkF p) (bs.flatMap (fun b => [mkB b, mkW b])) = 0 := by
  induction bs with
  | nil => rfl
  | cons b bs' ih =>
    rw [List.flatMap_cons, List.count_append, ih]
    simp [mkF, mkB, mkW, List.count_cons, List.count_singleton, Action.mk.injEq]

lemma count_flatMapBW (a : Action) (bs : List (Nat × Nat)) :
    List.count a (bs.flatMap (fun b => [mkB b, mkW b])) =
      List.count a (bs.map mkB) + List.count a (bs.map mkW) := by
  induction bs with
  | nil => rfl
  | cons b bs' ih =>
    rw [List.flatMap_cons, List.count_append, ih]
    simp only [List.count_cons, List.count_nil, List.map_cons]
    omega

lemma count_map_kind_zero {α : Type} (a : Action) (g : α → Action)
    (l : List α) (h : ∀ q, (g q).kind ≠ a.kind) :
    List.count a (l.map g) = 0 := by
  rw [List.count_eq_zero]
  intro hm
  obtain ⟨q, _, hq⟩ := List.mem_map.mp hm
  exact h q (by rw [hq])

lemma mkF_injective : Function.Injective mkF := by
  intro q q' h
  simp only [mkF, Action.mk.injEq, Option.some_inj] at h
  cases q
  cases q'
  simp_all

lemma mkB_injective : Function.Injective mkB := by
  intro q q' h
  simp only [mkB, Action.mk.injEq, Option.some_inj] at h
  cases q
  cases q'
  simp_all

lemma mkW_injective : Function.Injective mkW := by
  intro q q' h
  simp only [mkW, Action.mk.injEq, Option.some_inj] at h
  cases q
  cases q'
  simp_all

lemma stage_mod_eq (r X gs : Nat) (hr : r < gs) : (r + X * gs) % gs = r := by
  rw [Nat.add_mul_mod_self_right, Nat.mod_eq_of_lt hr]

lemma owner_stage_decomp (s gs r : Nat) (ho : s % gs = r) :
    r + s / gs * gs = s := by
  calc r + s / gs * gs = s % gs + gs * (s / gs) := by
        rw [ho, Nat.mul_comm]
    _ = s := Nat.mod_add_div s gs

lemma fwdPairFlex_spec (L M gs r s m : Nat) (hL : 0 < L) (hg : 0 < gs)
    (hs : s < L * gs) (hm : m < M) (ho : s % gs = r) :
    m * L + s / gs < L * M ∧
    fwdPairFlex L gs r (m * L + s / gs) = (s, m) ∧
    ∀ k, fwdPairFlex L gs r k = (s, m) → k = m * L + s / gs := by
  have hdiv : s / gs < L := (Nat.div_lt_iff_lt_mul hg).mpr hs
  refine ⟨?_, ?_, ?_⟩
  · calc m * L + s / gs < m * L + L := by omega
      _ = (m + 1) * L := by ring
      _ ≤ M * L := Nat.mul_le_mul_right L (by omega)
      _ = L * M := Nat.mul_comm M L
  · unfold fwdPairFlex
    have h1 : (m * L + s / gs) % L = s / gs := by
      rw [Nat.mul_comm m L, Nat.mul_add_mod, Nat.mod_eq_of_lt hdiv]
    have h2 : (m * L + s / gs) / L = m := by
      rw [Nat.mul_comm m L, Nat.mul_add_div hL, Nat.div_eq_of_lt hdiv,
        Nat.add_zero]
    rw [h1, h2, owner_stage_decomp s gs r ho]
  · intro k hk
    unfold fwdPairFlex at hk
    rw [Prod.mk.injEq] at hk
    obtain ⟨hk1, hk2⟩ := hk
    have hso := owner_stage_decomp s gs r ho
    have hmod : k % L = s / gs :=
      Nat.eq_of_mul_eq_mul_right hg (by omega)
    have hdm := Nat.div_add_mod k L
    rw [hk2, hmod, Nat.mul_comm L m] at hdm
    omega

lemma fwdPairFlex_nonowner (L gs r s m k : Nat) (hr : r < gs)
    (ho : s % gs ≠ r) : fwdPairFlex L gs r k ≠ (s, m) := by
  intro hk
  unfold fwdPairFlex at hk
  rw [Prod.mk.injEq] at hk
  apply ho
  rw [← hk.1, stage_mod_eq r _ gs hr]

lemma bwdPairFlex_spec (L M gs r s m : Nat) (hL : 0 < L) (hg : 0 < gs)
    (hs : s < L * gs) (hm : m < M) (ho : s % gs = r) :
    m * L + (L - 1 - s / gs) < L * M ∧
    bwdPairFlex L gs r (m * L + (L - 1 - s / gs)) = (s, m) ∧
    ∀ k, bwdPairFlex L gs r k = (s, m) → k = m * L + (L - 1 - s / gs) := by
  have hdiv : s / gs < L := (Nat.div_lt_iff_lt_mul hg).mpr hs
  have hd2 : L - 1 - s / gs < L := by
    have h := hdiv
    generalize s / gs = d at h ⊢
    omega
  refine ⟨?_, ?_, ?_⟩
  · calc m * L + (L - 1 - s / gs) < m * L + L := Nat.add_lt_add_left hd2 (m * L)
      _ = (m + 1) * L := by ring
      _ ≤ M * L := Nat.mul_le_mul_right L (by omega)
      _ = L * M := Nat.mul_comm M L
  · unfold bwdPairFlex
    have h1 : (m * L + (L - 1 - s / gs)) % L = L - 1 - s / gs := by
      rw [Nat.mul_comm m L, Nat.mul_add_mod, Nat.mod_eq_of_lt hd2]
    have h2 : (m * L + (L - 1 - s / gs)) / L = m := by
      rw [Nat.mul_comm m L, Nat.mul_add_div hL, Nat.div_eq_of_lt hd2,
        Nat.add_zero]
    have h3 : L - 1 - (L - 1 - s / gs) = s / gs := by
      have h := hdiv
      generalize s / gs = d at h ⊢
      omega
    rw [h1, h2, h3, owner_stage_decomp s gs r ho]
  · intro k hk
    unfold bwdPairFlex at hk
    rw [Prod.mk.injEq] at hk
    obtain ⟨hk1, hk2⟩ := hk
    have hso := owner_stage_decomp s gs r ho
    have hkl : k % L < L := Nat.mod_lt k hL
    have hcancel : L - 1 - k % L = s / gs :=
      Nat.eq_of_mul_eq_mul_right hg (by omega)
    have hmod : k % L = L - 1 - s / gs := by
      have h1 := hcancel
      have h2 := hkl
      have h3 := hdiv
      generalize k % L = a at h1 h2 ⊢
      generalize s / gs = b at h1 h3 ⊢
      omega
    have hdm := Nat.div_add_mod k L
    rw [hk2, hmod, Nat.mul_comm L m] at hdm
    omega

lemma bwdPairFlex_nonowner (L gs r s m k : Nat) (hr : r < gs)
    (ho : s % gs ≠ r) : bwdPairFlex L gs r k ≠ (s, m) := by
  intro hk
  unfold bwdPairFlex at hk
  rw [Prod.mk.injEq] at hk
  apply ho
  rw [← hk.1, stage_mod_eq r _ gs hr]

lemma fwdPairBFS_spec (L M gs r s m : Nat) (hL : 0 < L) (hg : 0 < gs)
    (hs : s < L * gs) (hm : m < M) (ho : s % gs = r) :
    s / gs * M + m < L * M ∧
    fwdPairBFS M gs r (s / gs * M + m) = (s, m) ∧
    ∀ k, fwdPairBFS M gs r k = (s, m) → k = s / gs * M + m := by
  have hM : 0 < M := by omega
  have hdiv : s / gs < L := (Nat.div_lt_iff_lt_mul hg).mpr hs
  refine ⟨?_, ?_, ?_⟩
  · calc s / gs * M + m < s / gs * M + M := by omega
      _ = (s / gs + 1) * M := by ring
      _ ≤ L * M := Nat.mul_le_mul_right M (by omega)
  · unfold fwdPairBFS
    have h1 : (s / gs * M + m) % M = m := by
      rw [Nat.mul_comm (s / gs) M, Nat.mul_add_mod, Nat.mod_eq_of_lt hm]
    have h2 : (s / gs * M + m) / M = s / gs := by
      rw [Nat.mul_comm (s / gs) M, Nat.mul_add_div hM, Nat.div_eq_of_lt hm,
        Nat.add_zero]
    rw [h1, h2, owner_stage_decomp s gs r ho]
  · intro k hk
    unfold fwdPairBFS at hk
    rw [Prod.mk.injEq] at hk
    obtain ⟨hk1, hk2⟩ := hk
    have hso := owner_stage_decomp s gs r ho
    have hdivk : k / M = s / gs :=
      Nat.eq_of_mul_eq_mul_right hg (by omega)
    have hdm := Nat.div_add_mod k M
    rw [hdivk, hk2, Nat.mul_comm M (s / gs)] at hdm
    omega

lemma fwdPairBFS_nonowner (M gs r s m k : Nat) (hr : r < gs)
    (ho : s % gs ≠ r) : fwdPairBFS M gs r k ≠ (s, m) := by
  intro hk
  unfold fwdPairBFS at hk
  rw [Prod.mk.injEq] at hk
  apply ho
  rw [← hk.1, stage_mod_eq r _ gs hr]

lemma bwdPairBFS_spec (L M gs r s m : Nat) (hL : 0 < L) (hg : 0 < gs)
    (hs : s < L * gs) (hm : m < M) (ho : s % gs = r) :
    (L - 1 - s / gs) * M + m < L * M ∧
    bwdPairBFS L M gs r ((L - 1 - s / gs) * M + m) = (s, m) ∧
    ∀ k, k < L * M → bwdPairBFS L M gs r k = (s, m) →
      k = (L - 1 - s / gs) * M + m := by
  have hM : 0 < M := by omega
  have hdiv : s / gs < L := (Nat.div_lt_iff_lt_mul hg).mpr hs
  have hd2 : L - 1 - s / gs < L := by
    have h := hdiv
    generalize s / gs = d at h ⊢
    omega
  refine ⟨?_, ?_, ?_⟩
  · calc (L - 1 - s / gs) * M + m < (L - 1 - s / gs) * M + M := by omega
      _ = (L - 1 - s / gs + 1) * M := by ring
      _ ≤ L * M := Nat.mul_le_mul_right M (Nat.succ_le_of_lt hd2)
  · unfold bwdPairBFS
    have h1 : ((L - 1 - s / gs) * M + m) % M = m := by
      rw [Nat.mul_comm (L - 1 - s / gs) M, Nat.mul_add_mod, Nat.mod_eq_of_lt hm]
    have h2 : ((L - 1 - s / gs) * M + m) / M = L - 1 - s / gs := by
      rw [Nat.mul_comm (L - 1 - s / gs) M, Nat.mul_add_div hM,
        Nat.div_eq_of_lt hm, Nat.add_zero]
    have h3 : L - 1 - (L - 1 - s / gs) = s / gs := by
      have h := hdiv
      generalize s / gs = d at h ⊢
      omega
    rw [h1, h2, h3, owner_stage_decomp s gs r ho]
  · intro k hkT hk
    unfold bwdPairBFS at hk
    rw [Prod.mk.injEq] at hk
    obtain ⟨hk1, hk2⟩ := hk
    have hso := owner_stage_decomp s gs r ho
    have hkl : k / M < L := (Nat.div_lt_iff_lt_mul hM).mpr (by omega)
    have hcancel : L - 1 - k / M = s / gs :=
      Nat.eq_of_mul_eq_mul_right hg (by omega)
    have hdivk : k / M = L - 1 - s / gs := by
      have h1 := hcancel
      have h2 := hkl
      have h3 := hdiv
      generalize k / M = a at h1 h2 ⊢
      generalize s / gs = b at h1 h3 ⊢
      omega
    have hdm := Nat.div_add_mod k M
    rw [hdivk, hk2, Nat.mul_comm M (L - 1 - s / gs)] at hdm
    omega

lemma bwdPairBFS_nonowner (L M gs r s m k : Nat) (hr : r < gs)
    (ho : s % gs ≠ r) : bwdPairBFS L M gs r k ≠ (s, m) := by
  intro hk
  unfold bwdPairBFS at hk
  rw [Prod.mk.injEq] at hk
  apply ho
  rw [← hk.1, stage_mod_eq r _ gs hr]

lemma count_map_range_eq_one {α : Type} [DecidableEq α] (f : Nat → α)
    (T : Nat) (p : α) (k₀ : Nat) (hk : k₀ < T) (hf : f k₀ = p)
    (huniq : ∀ k, k < T → f k = p → k = k₀) :
    List.count p ((List.range T).map f) = 1 := by
  show List.countP (· == p) ((List.range T).map f) = 1
  rw [List.countP_map]
  rw [List.countP_congr (q := (· == k₀))]
  · show List.count k₀ (List.range T) = 1
    exact List.count_eq_one_of_mem (List.nodup_range T) (by simpa using hk)
  · intro k hkm
    rw [List.mem_range] at hkm
    simp only [Function.comp_apply, beq_iff_eq]
    constructor
    · exact fun h => huniq k hkm h
    · intro h
      subst h
      exact hf

lemma count_map_range_eq_zero {α : Type} [DecidableEq α] (f : Nat → α)
    (T : Nat) (p : α) (h : ∀ k, k < T → f k ≠ p) :
    List.count p ((List.range T).map f) = 0 := by
  rw [List.count_eq_zero]
  intro hm
  obtain ⟨k, hkm, hq⟩ := List.mem_map.mp hm
  rw [List.mem_range] at hkm
  exact h k hkm hq

lemma count_flexRank (L M gs r s m : Nat) (hL : 0 < L) (hg : 0 < gs)
    (hs : s < L * gs) (hm : m < M) (hr : r < gs) :
    List.count (mkF (s, m)) (flexRank L M gs r) = (if s % gs = r then 1 else 0) ∧
    List.count (mkB (s, m)) (flexRank L M gs r) = (if s % gs = r then 1 else 0) ∧
    List.count (mkW (s, m)) (flexRank L M gs r) = (if s % gs = r then 1 else 0) := by
  have hTmap : ∀ a : Action, List.count a (flexRank L M gs r) =
      List.count a ((List.range (L * M)).map (mkF ∘ fwdPairFlex L gs r)) +
      (List.count a ((List.range (L * M)).map (mkB ∘ bwdPairFlex L gs r)) +
        List.count a ((List.range (L * M)).map (mkW ∘ bwdPairFlex L gs r))) := by
    intro a
    rw [flexRank, count_oneFOneB, count_flatMapBW, List.map_map, List.map_map,
      List.map_map]
  refine ⟨?_, ?_, ?_⟩
  · rw [hTmap,
      count_map_kind_zero _ (mkB ∘ bwdPairFlex L gs r) _
        (fun q => by simp [Function.comp, mkB, mkF]),
      count_map_kind_zero _ (mkW ∘ bwdPairFlex L gs r) _
        (fun q => by simp [Function.comp, mkW, mkF])]
    by_cases ho : s % gs = r
    · obtain ⟨hb, hv, hu⟩ := fwdPairFlex_spec L M gs r s m hL hg hs hm ho
      rw [if_pos ho,
        count_map_range_eq_one (mkF ∘ fwdPairFlex L gs r) (L * M)
          (mkF (s, m)) (m * L + s / gs) hb
          (by simp only [Function.comp_apply]; rw [hv])
          (fun k hkT hfk => hu k (mkF_injective (by simpa using hfk)))]
    · rw [if_neg ho,
        count_map_range_eq_zero _ _ _ (fun k hkT hfk =>
          fwdPairFlex_nonowner L gs r s m k hr ho
            (mkF_injective (by simpa using hfk)))]
  · rw [hTmap,
      count_map_kind_zero _ (mkF ∘ fwdPairFlex L gs r) _
        (fun q => by simp [Function.comp, mkB, mkF]),
      count_map_kind_zero _ (mkW ∘ bwdPairFlex L gs r) _
        (fun q => by simp [Function.comp, mkW, mkB])]
    by_cases ho : s % gs = r
    · obtain ⟨hb, hv, hu⟩ := bwdPairFlex_spec L M gs r s m hL hg hs hm ho
      rw [if_pos ho,
        count_map_range_eq_one (mkB ∘ bwdPairFlex L gs r) (L * M)
          (mkB (s, m)) (m * L + (L - 1 - s / gs)) hb
          (by simp only [Function.comp_apply]; rw [hv])
          (fun k hkT hfk => hu k (mkB_injective (by simpa using hfk)))]
    · rw [if_neg ho,
        count_map_range_eq_zero _ _ _ (fun k hkT hfk =>
          bwdPairFlex_nonowner L gs r s m k hr ho
            (mkB_injective (by simpa using hfk)))]
  · rw [hTmap,
      count_map_kind_zero _ (mkF ∘ fwdPairFlex L gs r) _
        (fun q => by simp [Function.comp, mkW, mkF]),
      count_map_kind_zero _ (mkB ∘ bwdPairFlex L gs r) _
        (fun q => by simp [Function.comp, mkW, mkB])]
    by_cases ho : s % gs = r
    · obtain ⟨hb, hv, hu⟩ := bwdPairFlex_spec L M gs r s m hL hg hs hm ho
      rw [if_pos ho,
        count_map_range_eq_one (mkW ∘ bwdPairFlex L gs r) (L * M)
          (mkW (s, m)) (m * L + (L - 1 - s / gs)) hb
          (by simp only [Function.comp_apply]; rw [hv])
          (fun k hkT hfk => hu k (mkW_injective (by simpa using hfk)))]
    · rw [if_neg ho,
        count_map_range_eq_zero _ _ _ (fun k hkT hfk =>
          bwdPairFlex_nonowner L gs r s m k hr ho
            (mkW_injective (by simpa using hfk)))]

lemma count_bfsRank (L M gs r s m : Nat) (hL : 0 < L) (hg : 0 < gs)
    (hs : s < L * gs) (hm : m < M) (hr : r < gs) :
    List.count (mkF (s, m)) (bfsRank L M gs r) = (if s % gs = r then 1 else 0) ∧
    List.count (mkB (s, m)) (bfsRank L M gs r) = (if s % gs = r then 1 else 0) ∧
    List.count (mkW (s, m)) (bfsRank L M gs r) = (if s % gs = r then 1 else 0) := by
  have hTmap : ∀ a : Action, List.count a (bfsRank L M gs r) =
      List.count a ((List.range (L * M)).map (mkF ∘ fwdPairBFS M gs r)) +
      (List.count a ((List.range (L * M)).map (mkB ∘ bwdPairBFS L M gs r)) +
        List.count a ((List.range (L * M)).map (mkW ∘ bwdPairBFS L M gs r))) := by
    intro a
    rw [bfsRank, count_oneFOneB, count_flatMapBW, List.map_map, List.map_map,
      List.map_map]
  refine ⟨?_, ?_, ?_⟩
  · rw [hTmap,
      count_map_kind_zero _ (mkB ∘ bwdPairBFS L M gs r) _
        (fun q => by simp [Function.comp, mkB, mkF]),
      count_map_kind_zero _ (mkW ∘ bwdPairBFS L M gs r) _
        (fun q => by simp [Function.comp, mkW, mkF])]
    by_cases ho : s % gs = r
    · obtain ⟨hb, hv, hu⟩ := fwdPairBFS_spec L M gs r s m hL hg hs hm ho
      rw [if_pos ho,
        count_map_range_eq_one (mkF ∘ fwdPairBFS M gs r) (L * M)
          (mkF (s, m)) (s / gs * M + m) hb
          (by simp only [Function.comp_apply]; rw [hv])
          (fun k hkT hfk => hu k (mkF_injective (by simpa using hfk)))]
    · rw [if_neg ho,
        count_map_range_eq_zero _ _ _ (fun k hkT hfk =>
          fwdPairBFS_nonowner M gs r s m k hr ho
            (mkF_injective (by simpa using hfk)))]
  · rw [hTmap,
      count_map_kind_zero _ (mkF ∘ fwdPairBFS M gs r) _
        (fun q => by simp [Function.comp, mkB, mkF]),
      count_map_kind_zero _ (mkW ∘ bwdPairBFS L M gs r) _
        (fun q => by simp [Function.comp, mkW, mkB])]
    by_cases ho : s % gs = r
    · obtain ⟨hb, hv, hu⟩ := bwdPairBFS_spec L M gs r s m hL hg hs hm ho
      rw [if_pos ho,
        count_map_range_eq_one (mkB ∘ bwdPairBFS L M gs r) (L * M)
          (mkB (s, m)) ((L - 1 - s / gs) * M + m) hb
          (by simp only [Function.comp_apply]; rw [hv])
          (fun k hkT hfk => hu k hkT (mkB_injective (by simpa using hfk)))]
    · rw [if_neg ho,
        count_map_range_eq_zero _ _ _ (fun k hkT hfk =>
          bwdPairBFS_nonowner L M gs r s m k hr ho
            (mkB_injective (by simpa using hfk)))]
  · rw [hTmap,
      count_map_kind_zero _ (mkF ∘ fwdPairBFS M gs r) _
        (fun q => by simp [Function.comp, mkW, mkF]),
      count_map_kind_zero _ (mkB ∘ bwdPairBFS L M gs r) _
        (fun q => by simp [Function.comp, mkW, mkB])]
    by_cases ho : s % gs = r
    · obtain ⟨hb, hv, hu⟩ := bwdPairBFS_spec L M gs r s m hL hg hs hm ho
      rw [if_pos ho,
        count_map_range_eq_one (mkW ∘ bwdPairBFS L M gs r) (L * M)
          (mkW (s, m)) ((L - 1 - s / gs) * M + m) hb
          (by simp only [Function.comp_apply]; rw [hv])
          (fun k hkT hfk => hu k hkT (mkW_injective (by simpa using hfk)))]
    · rw [if_neg ho,
        count_map_range_eq_zero _ _ _ (fun k hkT hfk =>
          bwdPairBFS_nonowner L M gs r s m k hr ho
            (mkW_injective (by simpa using hfk)))]

lemma total_of_rank_ind (gs v : Nat) (hv : v < gs) (gen : Nat → List Action)
    (a : Action)
    (h : ∀ r, r < gs → List.count a (gen r) = if v = r then 1 else 0) :
    totalCount a ((List.range gs).map gen) = 1 := by
  rw [totalCount, List.map_map]
  have hpt : ∀ r ∈ List.range gs,
      (List.count a ∘ gen) r = if v = r then (fun _ : Nat => 1) r else 0 := by
    intro r hr
    exact h r (List.mem_range.mp hr)
  rw [List.map_congr_left hpt, sum_range_indicator, if_pos hv]

lemma append_split_of_not_mem {α : Type} (l1 l2 x y : List α) (a : α)
    (h : l1 ++ l2 = x ++ a :: y) (ha : a ∉ l1) :
    ∃ x', x = l1 ++ x' ∧ l2 = x' ++ a :: y := by
  rcases List.append_eq_append_iff.mp h with ⟨a', hx, hl2⟩ | ⟨c, hl1, hcy⟩
  · exact ⟨a', hx, hl2⟩
  · cases c with
    | nil =>
      refine ⟨[], by simp [hl1], ?_⟩
      rw [List.nil_append]
      simpa using hcy.symm
    | cons c0 c' =>
      exfalso
      apply ha
      rw [hl1]
      have hc0 : a = c0 := by
        rw [List.cons_append] at hcy
        exact (List.cons.inj hcy).1
      rw [hc0]
      exact List.mem_append_right x (List.mem_cons_self _ _)

lemma weave_prec (fs : List (Nat × Nat)) (bs done : List (Nat × Nat))
    (H : ∀ k (hk : k < bs.length), bs[k] ∈ done ∨
      ∃ j, ∃ hj : j < fs.length, j ≤ k ∧ fs[j] = bs[k])
    (p : Nat × Nat) (x y : List Action)
    (hxy : weave fs bs = x ++ mkB p :: y) :
    p ∈ done ∨ mkF p ∈ x := by
  induction fs generalizing bs done x y with
  | nil =>
    have hpmem : mkB p ∈ weave [] bs := by
      rw [hxy]
      exact List.mem_append_right x (List.mem_cons_self _ _)
    rw [show weave [] bs = bs.flatMap (fun b => [mkB b, mkW b]) from rfl]
      at hpmem
    obtain ⟨b, hbmem, hpb⟩ := List.mem_flatMap.mp hpmem
    have hbp : b = p := by
      rcases List.mem_cons.mp hpb with h | h
      · exact (mkB_injective h).symm
      · rw [List.mem_singleton] at h
        exact absurd h (by simp [mkB, mkW, Action.mk.injEq])
    obtain ⟨k, hk, hbk⟩ := List.mem_iff_getElem.mp hbmem
    rcases H k hk with hdone | ⟨j, hj, _, _⟩
    · left
      rw [hbk, hbp] at hdone
      exact hdone
    · exact absurd hj (by simp)
  | cons f fs' ih =>
    cases bs with
    | nil =>
      exfalso
      rw [show weave (f :: fs') [] = (f :: fs').map mkF from rfl] at hxy
      have hpmem : mkB p ∈ (f :: fs').map mkF := by
        rw [hxy]
        exact List.mem_append_right x (List.mem_cons_self _ _)
      obtain ⟨q, _, hq⟩ := List.mem_map.mp hpmem
      exact absurd hq (by simp [mkF, mkB, Action.mk.injEq])
    | cons b bs' =>
      rw [show weave (f :: fs') (b :: bs') =
        mkF f :: mkB b :: mkW b :: weave fs' bs' from rfl] at hxy
      cases x with
      | nil =>
        rw [List.nil_append] at hxy
        exact absurd (List.cons.inj hxy).1
          (by simp [mkF, mkB, Action.mk.injEq])
      | cons x0 x1 =>
        rw [List.cons_append] at hxy
        obtain ⟨hx0, hxy1⟩ := List.cons.inj hxy
        cases x1 with
        | nil =>
          rw [List.nil_append] at hxy1
          obtain ⟨hb, _⟩ := List.cons.inj hxy1
          have hbp : b = p := mkB_injective hb
          rcases H 0 (by simp) with hdone | ⟨j, hj, hj0, hget⟩
          · left
            have : b ∈ done := by simpa using hdone
            rw [← hbp]
            exact this
          · right
            have hj' : j = 0 := by omega
            subst hj'
            have hfb : f = b := by simpa using hget
            have : mkF p = x0 := by
              rw [← hx0, ← hbp, ← hfb]
            rw [this]
            exact List.mem_cons_self _ _
        | cons x10 x11 =>
          rw [List.cons_append] at hxy1
          obtain ⟨hx10, hxy2⟩ := List.cons.inj hxy1
          cases x11 with
          | nil =>
            rw [List.nil_append] at hxy2
            obtain ⟨hw, _⟩ := List.cons.inj hxy2
            exact absurd hw (by simp [mkW, mkB, Action.mk.injEq])
          | cons x110 x111 =>
            rw [List.cons_append] at hxy2
            obtain ⟨hx110, hxy3⟩ := List.cons.inj hxy2
            have H' : ∀ k (hk : k < bs'.length), bs'[k] ∈ (f :: done) ∨
                ∃ j, ∃ hj : j < fs'.length, j ≤ k ∧ fs'[j] = bs'[k] := by
              intro k hk
              rcases H (k + 1) (by simpa using Nat.succ_lt_succ hk) with
                hdone | ⟨j, hj, hjk, hget⟩
              · left
                exact List.mem_cons_of_mem f (by simpa using hdone)
              · cases j with
                | zero =>
                  left
                  have hfk : f = bs'[k] := by simpa using hget
                  rw [← hfk]
                  exact List.mem_cons_self _ _
                | succ j' =>
                  right
                  exact ⟨j', by simpa using hj, by omega, by simpa using hget⟩
            rcases ih bs' (f :: done) H' x111 y hxy3 with hdone | hfx
            · rcases List.mem_cons.mp hdone with hpf | hpd
              · right
                rw [hpf, hx0]
                exact List.mem_cons_self _ _
              · left
                exact hpd
            · right
              exact List.mem_cons_of_mem _ (List.mem_cons_of_mem _
                (List.mem_cons_of_mem _ hfx))

lemma oneFOneB_prec (fwd bwd : List (Nat × Nat)) (w : Nat)
    (H : ∀ k (hk : k < bwd.length), ∃ j, ∃ hj : j < fwd.length,
      j ≤ w + k ∧ fwd[j] = bwd[k])
    (p : Nat × Nat) (x y : List Action)
    (hxy : oneFOneB fwd bwd w = x ++ mkB p :: y) :
    mkF p ∈ x := by
  rw [oneFOneB] at hxy
  have hnot : mkB p ∉ (fwd.take w).map mkF := by
    intro hmem
    obtain ⟨q, _, hq⟩ := List.mem_map.mp hmem
    exact absurd hq (by simp [mkF, mkB, Action.mk.injEq])
  obtain ⟨x', hx, hweave⟩ := append_split_of_not_mem _ _ x y (mkB p) hxy hnot
  have Hw : ∀ k (hk : k < bwd.length), bwd[k] ∈ fwd.take w ∨
      ∃ j, ∃ hj : j < (fwd.drop w).length, j ≤ k ∧ (fwd.drop w)[j] = bwd[k] := by
    intro k hk
    obtain ⟨j, hj, hjk, hget⟩ := H k hk
    by_cases hjw : j < w
    · left
      have hjt : j < (fwd.take w).length := by
        rw [List.length_take]
        omega
      have hgt : (fwd.take w)[j] = fwd[j] := List.getElem_take fwd
      rw [← hget, ← hgt]
      exact List.getElem_mem hjt
    · right
      refine ⟨j - w, ?_, by omega, ?_⟩
      · rw [List.length_drop]
        omega
      · rw [List.getElem_drop]
        have hidx : w + (j - w) = j := by omega
        simp only [hidx]
        exact hget
  rcases weave_prec (fwd.drop w) bwd (fwd.take w) Hw p x' y hweave with hdone | hfx
  · rw [hx]
    exact List.mem_append_left x' (List.mem_map_of_mem mkF hdone)
  · rw [hx]
    exact List.mem_append_right _ hfx

lemma flexRank_prec (L M gs r : Nat) (hL : 0 < L) (p : Nat × Nat)
    (x y : List Action) (hxy : flexRank L M gs r = x ++ mkB p :: y) :
    mkF p ∈ x := by
  apply oneFOneB_prec _ _ _ ?_ p x y hxy
  intro k hk
  have hkT : k < L * M := by simpa using hk
  have hkL : k % L < L := Nat.mod_lt k hL
  have hkdm := Nat.div_add_mod k L
  have hdivk : k / L < M := by
    rw [Nat.div_lt_iff_lt_mul hL]
    rw [Nat.mul_comm]
    exact hkT
  have hjT : L * (k / L) + (L - 1 - k % L) < L * M := by
    have h1 : L - 1 - k % L < L := by
      generalize k % L = a at hkL ⊢
      omega
    calc L * (k / L) + (L - 1 - k % L) < L * (k / L) + L := by omega
      _ = L * (k / L + 1) := by ring
      _ ≤ L * M := Nat.mul_le_mul_left L (by omega)
  refine ⟨L * (k / L) + (L - 1 - k % L), by simpa using hjT, ?_, ?_⟩
  · rw [warmupFlex]
    by_cases hcase : L - 1 + 2 * (gs - 1 - r) ≤ L * M
    · rw [Nat.min_eq_right hcase]
      have : L * (k / L) + (L - 1 - k % L) ≤ k + (L - 1) := by
        generalize hA : L * (k / L) = A at hkdm ⊢
        generalize k % L = a at hkdm hkL ⊢
        omega
      omega
    · rw [Nat.min_eq_left (by omega)]
      omega
  · simp only [List.getElem_map, List.getElem_range]
    unfold fwdPairFlex bwdPairFlex
    have h1 : L - 1 - k % L < L := by
      generalize k % L = a at hkL ⊢
      omega
    have hjmod : (L * (k / L) + (L - 1 - k % L)) % L = L - 1 - k % L := by
      rw [Nat.mul_add_mod, Nat.mod_eq_of_lt h1]
    have hjdiv : (L * (k / L) + (L - 1 - k % L)) / L = k / L := by
      rw [Nat.mul_add_div hL, Nat.div_eq_of_lt h1, Nat.add_zero]
    rw [hjmod, hjdiv]

lemma bfsRank_prec (L M gs r : Nat) (hL : 0 < L) (p : Nat × Nat)
    (x y : List Action) (hxy : bfsRank L M gs r = x ++ mkB p :: y) :
    mkF p ∈ x := by
  apply oneFOneB_prec _ _ _ ?_ p x y hxy
  intro k hk
  have hkT : k < L * M := by simpa using hk
  have hM : 0 < M := by
    by_contra hc
    have : M = 0 := by omega
    rw [this, Nat.mul_zero] at hkT
    omega
  have hkM : k % M < M := Nat.mod_lt k hM
  have hkdm := Nat.div_add_mod k M
  have hdivk : k / M < L := by
    rw [Nat.div_lt_iff_lt_mul hM]
    exact hkT
  have hjT : M * (L - 1 - k / M) + k % M < L * M := by
    have h1 : L - 1 - k / M < L := by
      generalize k / M = a at hdivk ⊢
      omega
    calc M * (L - 1 - k / M) + k % M < M * (L - 1 - k / M) + M := by omega
      _ = M * (L - 1 - k / M + 1) := by ring
      _ ≤ M * L := Nat.mul_le_mul_left M (by omega)
      _ = L * M := Nat.mul_comm M L
  refine ⟨M * (L - 1 - k / M) + k % M, by simpa using hjT, by omega, ?_⟩
  · simp only [List.getElem_map, List.getElem_range]
    unfold fwdPairBFS bwdPairBFS
    have h1 : L - 1 - k / M < L := by
      generalize k / M = a at hdivk ⊢
      omega
    have hjdiv : (M * (L - 1 - k / M) + k % M) / M = L - 1 - k / M := by
      rw [Nat.mul_add_div hM, Nat.div_eq_of_lt hkM, Nat.add_zero]
    have hjmod : (M * (L - 1 - k / M) + k % M) % M = k % M := by
      rw [Nat.mul_add_mod, Nat.mod_eq_of_lt hkM]
    rw [hjmod, hjdiv]

/-- C2: in every rank's program order produced by any of the three
generators, the FORWARD action for a (stage, microbatch) pair strictly
precedes the BACKWARD action for the same pair: any occurrence of
BACKWARD(p) in a rank's timeline has a FORWARD(p) strictly before it. -/
theorem C2_causal_ordering (L M gs : Nat) (hL : 0 < L) (hg : 0 < gs) :
    (∀ (r : Nat) (lr : List Action),
      (ScheduleFlexibleInterleaved1F1B L M gs)[r]? = some lr →
      ∀ p x y, lr = x ++ mkB p :: y → mkF p ∈ x) ∧
    (∀ (r : Nat) (lr : List Action),
      (ScheduleLoopedBFS L M gs)[r]? = some lr →
      ∀ p x y, lr = x ++ mkB p :: y → mkF p ∈ x) ∧
    (∀ sch : List (List Action), ScheduleInterleaved1F1B L M gs = Except.ok sch →
      ∀ (r : Nat) (lr : List Action), sch[r]? = some lr →
        ∀ p x y, lr = x ++ mkB p :: y → mkF p ∈ x) := by
  have hflex : ∀ (r : Nat) (lr : List Action),
      (ScheduleFlexibleInterleaved1F1B L M gs)[r]? = some lr →
      ∀ p x y, lr = x ++ mkB p :: y → mkF p ∈ x := by
    intro r lr hlr p x y hdec
    rw [ScheduleFlexibleInterleaved1F1B, List.getElem?_map] at hlr
    by_cases hr : r < gs
    · rw [List.getElem?_range (by simpa using hr), Option.map_some'] at hlr
      apply flexRank_prec L M gs r hL p x y
      rw [Option.some_inj.mp hlr]
      exact hdec
    · rw [List.getElem?_eq_none (by simpa using hr)] at hlr
      exact absurd hlr (by simp)
  refine ⟨hflex, ?_, ?_⟩
  · intro r lr hlr p x y hdec
    rw [ScheduleLoopedBFS, List.getElem?_map] at hlr
    by_cases hr : r < gs
    · rw [List.getElem?_range (by simpa using hr), Option.map_some'] at hlr
      apply bfsRank_prec L M gs r hL p x y
      rw [Option.some_inj.mp hlr]
      exact hdec
    · rw [List.getElem?_eq_none (by simpa using hr)] at hlr
      exact absurd hlr (by simp)
  · intro sch hok
    rw [ScheduleInterleaved1F1B] at hok
    split_ifs at hok with hd
    rw [← Except.ok.inj hok]
    exact hflex

/-- Witness for C2 on the flexible schedule at (2, 2, 2), rank 0:
BACKWARD(2,0) is preceded by FORWARD(2,0). -/
theorem C2_causal_ordering_witness :
    mkF (2, 0) ∈ [mkF (0, 0), mkF (2, 0), mkF (0, 1), mkF (2, 1)] :=
  (C2_causal_ordering 2 2 2 (by decide) (by decide)).1 0
    (flexRank 2 2 2 0) (by decide) (2, 0)
    [mkF (0, 0), mkF (2, 0), mkF (0, 1), mkF (2, 1)]
    [mkW (2, 0), mkB (0, 0), mkW (0, 0), mkB (2, 1), mkW (2, 1),
      mkB (0, 1), mkW (0, 1)] (by decide)

/-- C1: for every configuration accepted by one of the three generators
(`num_stages = num_local_stages * group_size`), every pair
(stage, microbatch) in range appears exactly once as a FORWARD, exactly
once as a BACKWARD, and exactly once as a WEIGHT_UPDATE action across the
union of all ranks' timelines of the generated pipeline order. -/
theorem C1_completeness (L M gs s m : Nat) (hL : 0 < L) (hg : 0 < gs)
    (hs : s < L * gs) (hm : m < M) :
    (totalCount (mkF (s, m)) (ScheduleFlexibleInterleaved1F1B L M gs) = 1 ∧
      totalCount (mkB (s, m)) (ScheduleFlexibleInterleaved1F1B L M gs) = 1 ∧
      totalCount (mkW (s, m)) (ScheduleFlexibleInterleaved1F1B L M gs) = 1) ∧
    (totalCount (mkF (s, m)) (ScheduleLoopedBFS L M gs) = 1 ∧
      totalCount (mkB (s, m)) (ScheduleLoopedBFS L M gs) = 1 ∧
      totalCount (mkW (s, m)) (ScheduleLoopedBFS L M gs) = 1) ∧
    (∀ sch, ScheduleInterleaved1F1B L M gs = Except.ok sch →
      totalCount (mkF (s, m)) sch = 1 ∧
      totalCount (mkB (s, m)) sch = 1 ∧
      totalCount (mkW (s, m)) sch = 1) := by
  have hv : s % gs < gs := Nat.mod_lt s hg
  have hflex : totalCount (mkF (s, m)) (ScheduleFlexibleInterleaved1F1B L M gs) = 1 ∧
      totalCount (mkB (s, m)) (ScheduleFlexibleInterleaved1F1B L M gs) = 1 ∧
      totalCount (mkW (s, m)) (ScheduleFlexibleInterleaved1F1B L M gs) = 1 := by
    refine ⟨?_, ?_, ?_⟩
    · exact total_of_rank_ind gs (s % gs) hv (flexRank L M gs) _
        (fun r hr => (count_flexRank L M gs r s m hL hg hs hm hr).1)
    · exact total_of_rank_ind gs (s % gs) hv (flexRank L M gs) _
        (fun r hr => (count_flexRank L M gs r s m hL hg hs hm hr).2.1)
    · exact total_of_rank_ind gs (s % gs) hv (flexRank L M gs) _
        (fun r hr => (count_flexRank L M gs r s m hL hg hs hm hr).2.2)
  refine ⟨hflex, ⟨?_, ?_, ?_⟩, ?_⟩
  · exact total_of_rank_ind gs (s % gs) hv (bfsRank L M gs) _
      (fun r hr => (count_bfsRank L M gs r s m hL hg hs hm hr).1)
  · exact total_of_rank_ind gs (s % gs) hv (bfsRank L M gs) _
      (fun r hr => (count_bfsRank L M gs r s m hL hg hs hm hr).2.1)
  · exact total_of_rank_ind gs (s % gs) hv (bfsRank L M gs) _
      (fun r hr => (count_bfsRank L M gs r s m hL hg hs hm hr).2.2)
  · intro sch hok
    rw [ScheduleInterleaved1F1B] at hok
    split_ifs at hok with hd
    rw [← Except.ok.inj hok]
    exact hflex

/-- Witness for C1 at the test configuration (2, 2, 2), pair (3, 1). -/
theorem C1_completeness_witness :
    totalCount (mkF (3, 1)) (ScheduleFlexibleInterleaved1F1B 2 2 2) = 1 ∧
      totalCount (mkB (3, 1)) (ScheduleLoopedBFS 2 2 2) = 1 :=
  ⟨(C1_completeness 2 2 2 3 1 (by decide) (by decide) (by decide)
      (by decide)).1.1,
    (C1_completeness 2 2 2 3 1 (by decide) (by decide) (by decide)
      (by decide)).2.1.2.1⟩

/-- Witness for C3 at the reference two-rank schedule. -/
theorem C3_send_recv_pairing_witness :
    totalCount ⟨0, .SEND_F, some 1⟩ (add_send_recv
        [[Slot.act ⟨0, .F, some 0⟩, Slot.act ⟨0, .F, some 1⟩, Slot.idle,
          Slot.act ⟨0, .B, some 0⟩, Slot.idle, Slot.act ⟨0, .B, some 1⟩],
         [Slot.idle, Slot.act ⟨1, .F, some 0⟩, Slot.act ⟨1, .B, some 0⟩,
          Slot.act ⟨1, .F, some 1⟩, Slot.act ⟨1, .B, some 1⟩, Slot.idle]]
        (fun s => s) 2) =
      totalCount ⟨1, .RECV_F, some 1⟩ (add_send_recv
        [[Slot.act ⟨0, .F, some 0⟩, Slot.act ⟨0, .F, some 1⟩, Slot.idle,
          Slot.act ⟨0, .B, some 0⟩, Slot.idle, Slot.act ⟨0, .B, some 1⟩],
         [Slot.idle, Slot.act ⟨1, .F, some 0⟩, Slot.act ⟨1, .B, some 0⟩,
          Slot.act ⟨1, .F, some 1⟩, Slot.act ⟨1, .B, some 1⟩, Slot.idle]]
        (fun s => s) 2) :=
  ((C3_send_recv_pairing _ (fun s => s) 2 2 (by decide)).1 0 1
    (by decide) (by decide)).1

/-- Witness for C4 at the reference two-rank schedule: the compute filter of
rank 1's lowered timeline equals its original compute actions. -/
theorem C4_send_recv_placement_witness :
    ((add_send_recv
        [[Slot.act ⟨0, .F, some 0⟩, Slot.act ⟨0, .F, some 1⟩, Slot.idle,
          Slot.act ⟨0, .B, some 0⟩, Slot.idle, Slot.act ⟨0, .B, some 1⟩],
         [Slot.idle, Slot.act ⟨1, .F, some 0⟩, Slot.act ⟨1, .B, some 0⟩,
          Slot.act ⟨1, .F, some 1⟩, Slot.act ⟨1, .B, some 1⟩, Slot.idle]]
        (fun s => s) 2).get ⟨1, by decide⟩).filter
        (fun a => isComputeKind a.kind) =
      (acts ([[Slot.act ⟨0, .F, some 0⟩, Slot.act ⟨0, .F, some 1⟩, Slot.idle,
          Slot.act ⟨0, .B, some 0⟩, Slot.idle, Slot.act ⟨0, .B, some 1⟩],
         [Slot.idle, Slot.act ⟨1, .F, some 0⟩, Slot.act ⟨1, .B, some 0⟩,
          Slot.act ⟨1, .F, some 1⟩, Slot.act ⟨1, .B, some 1⟩, Slot.idle]].getD 1
        [])).filter (fun a => isComputeKind a.kind) := by
  apply C4_send_recv_placement.1 _ (fun s => s) 2 1
  rw [List.getElem?_eq_getElem (by decide), List.get_eq_getElem]

